import Mathlib

/-!
Verification of the generative tox-env specification library (codemod_tox),
shallowly embedded from `codemod_tox/core.py`, `codemod_tox/parse.py` and
`codemod_tox/utils.py`.  Python strings are modelled as `List Char`,
exceptions as `Except Err`, and Python truthiness is made explicit.
-/

deriving instance DecidableEq for Except

namespace CodemodTox

/-- Python strings are modelled as lists of characters. -/
abbrev Str := List Char

/-- Embed a Lean string literal as a character list. -/
def chars (s : String) : Str := s.data

/-- Horizontal whitespace, the `[ \t]` class used by the token regex. -/
def isHWS (c : Char) : Bool := c = ' ' || c = '\t'

/-- The whitespace class `\s` of the regex (ASCII whitespace). -/
def isPySpace (c : Char) : Bool :=
  c = ' ' || c = '\t' || c = '\n' || c = '\r' || c = '\x0b' || c = '\x0c'

/-- The literal-run character class `[A-Za-z0-9-_]` of `TOX_ENV_TOKEN_RE`. -/
def isLitChar (c : Char) : Bool :=
  decide (('A' ≤ c ∧ c ≤ 'Z') ∨ ('a' ≤ c ∧ c ≤ 'z') ∨ ('0' ≤ c ∧ c ≤ '9')
    ∨ c = '-' ∨ c = '_')

/-- The brace-group interior class `[^{}\s]` of `TOX_ENV_TOKEN_RE`. -/
def isOptChar (c : Char) : Bool := !(c = '{' || c = '}' || isPySpace c)

/-- A piece of a `ToxEnv`: a literal string or a `ToxOptions` alternative set
(`pieces: tuple[ToxOptions | str, ...]` in `core.py`). -/
inductive Piece where
  | lit : Str → Piece
  | opts : List Str → Piece
deriving DecidableEq

/-- `ToxEnv` from `core.py`: an ordered sequence of pieces. -/
structure ToxEnv where
  pieces : List Piece
deriving DecidableEq

/-- The strings an individual piece contributes (`ToxOptions.all` yields the
stored options; a literal contributes itself). -/
def pieceAll : Piece → List Str
  | .lit s => [s]
  | .opts os => os

/-- `ToxEnv.all`: the cartesian-product expansion, leftmost alternative set
as the outer loop (`itertools.product` with rightmost varying fastest). -/
def envAll : List Piece → List Str
  | [] => [[]]
  | p :: ps => (pieceAll p).flatMap fun a => (envAll ps).map fun t => a ++ t

/-- `ToxOptions.one`: the unique value when `set(options)` has size one,
otherwise a `ValueError` (modelled as `none`). -/
def one (os : List Str) : Option Str :=
  match os with
  | [] => none
  | x :: rest => if rest.all (fun y => y = x) then some x else none

/-- Python truthiness of a `ToxOptions` value: `ToxBase.__bool__` is
`any(self.all())`, i.e. some stored option is a nonempty string. -/
def optsTruthy (os : List Str) : Bool := os.any fun s => !s.isEmpty

/-- Python truthiness of a piece (used by the `if x` filters in `core.py`). -/
def pieceTruthy : Piece → Bool
  | .lit s => !s.isEmpty
  | .opts os => optsTruthy os

/-- Python truthiness of the optional `middle` accumulator in `_bucket`. -/
def mTruthy : Option (List Str) → Bool
  | none => false
  | some os => optsTruthy os

/-- The exception kinds raised by the embedded code. -/
inductive Err where
  | hoistErr
  | parseErr
  | assertErr
deriving DecidableEq

/-- `ToxOptions.addprefix`. -/
def addPre (p : Str) (os : List Str) : List Str := os.map fun x => p ++ x

/-- `ToxOptions.addsuffix`. -/
def addSuf (s : Str) (os : List Str) : List Str := os.map fun x => x ++ s

/-- The loop body of `ToxEnv._bucket`, walking pieces left to right with the
`left`/`middle`/`right` accumulators and Python truthiness tests. -/
def bucketGo : List Piece → Str → Option (List Str) → Str →
    Except Err (Str × Option (List Str) × Str)
  | [], l, m, r => .ok (l, m, r)
  | .lit s :: ps, l, m, r =>
    if mTruthy m then bucketGo ps l m (r ++ s) else bucketGo ps (l ++ s) m r
  | .opts os :: ps, l, m, r =>
    match one os with
    | some v =>
      if mTruthy m then bucketGo ps l m (r ++ v) else bucketGo ps (l ++ v) m r
    | none =>
      if mTruthy m then .error .hoistErr else bucketGo ps l (some os) r

/-- `ToxEnv._bucket`. -/
def bucket (e : ToxEnv) : Except Err (Str × Option (List Str) × Str) :=
  bucketGo e.pieces [] none []

/-- The truthiness filter `[x for x in (left, middle, right) if x]` used by
`_hoist_simple` to rebuild the resulting piece list. -/
def pieceFilter3 (l : Str) (os : List Str) (r : Str) : List Piece :=
  ([Piece.lit l, Piece.opts os, Piece.lit r]).filter pieceTruthy

/-- `ToxEnv._hoist_simple`. -/
def hoistSimple (e : ToxEnv) (pre : Str) : Except Err ToxEnv :=
  match bucket e with
  | .error er => .error er
  | .ok (l, m, r) =>
    if pre.isPrefixOf l then
      .ok ⟨pieceFilter3 (l.take pre.length) (addPre (l.drop pre.length) (m.getD [[]])) r⟩
    else .error .hoistErr

/-- `ToxBase.startswith` specialised to a piece: a literal uses
`str.startswith`, an alternative set requires every option to start with
the string. -/
def pieceStarts (pre : Str) : Piece → Bool
  | .lit s => pre.isPrefixOf s
  | .opts os => os.all fun a => pre.isPrefixOf a

/-- `p.removeprefix(prefix)` on a piece, at call sites where
`p.startswith(prefix)` is already known to hold. -/
def removePrePiece (pre : Str) : Piece → Piece
  | .lit s => .lit (s.drop pre.length)
  | .opts os => .opts (os.map fun a => a.drop pre.length)

/-- Python `str.removeprefix`: strips only when the prefix matches. -/
def removePreStr (s p : Str) : Str := if p.isPrefixOf s then s.drop p.length else s

/-- The loop of `ToxEnv._hoist_difficult`, consuming the remaining prefix
against the pieces; on the break paths the rest of the iterator is copied
through the truthiness filter `(x for x in it if x)`. -/
def hoistDiffGo (pre : Str) : List Piece → Except Err (List Piece)
  | [] => .ok []
  | p :: ps =>
    if pieceStarts pre p then
      .ok (Piece.lit pre ::
        ((if pieceTruthy (removePrePiece pre p) then [removePrePiece pre p] else [])
          ++ ps.filter pieceTruthy))
    else
      match p with
      | .lit s =>
        if s.isPrefixOf pre then
          (hoistDiffGo (pre.drop s.length) ps).map fun out => Piece.lit s :: out
        else .error .hoistErr
      | .opts os =>
        match one os with
        | none => .error .hoistErr
        | some v =>
          if (removePreStr pre v).isEmpty then .ok (Piece.lit v :: ps.filter pieceTruthy)
          else (hoistDiffGo (removePreStr pre v) ps).map fun out => Piece.lit v :: out

/-- `ToxBase.startswith` on a whole env: every generated string starts with
the given string. -/
def envAllStarts (pre : Str) (ps : List Piece) : Bool :=
  (envAll ps).all fun t => pre.isPrefixOf t

/-- `ToxEnv._hoist_difficult`. -/
def hoistDiff (e : ToxEnv) (pre : Str) : Except Err ToxEnv :=
  if envAllStarts pre e.pieces then
    (hoistDiffGo pre e.pieces).map ToxEnv.mk
  else .error .hoistErr

/-- `ToxEnv.hoist`: the fast bucket-based path with fallback to the general
piecewise path on `HoistError`. -/
def hoist (e : ToxEnv) (pre : Str) : Except Err ToxEnv :=
  match hoistSimple e pre with
  | .ok r => .ok r
  | .error _ => hoistDiff e pre

/-- Length of the longest common prefix of two strings; the first loop of
`ToxEnv.add` computes exactly this value for `i`. -/
def lcpLen : Str → Str → Nat
  | a :: as, b :: bs => if a = b then lcpLen as bs + 1 else 0
  | _, _ => 0

/-- The second loop of `ToxEnv.add`, on reversed strings: compares
`value[-k-1]` with `right[-k-1]`, breaking when `k` reaches `len(right)` or
on a mismatch; when the loop range is exhausted without a break, the
`for`/`else` clause yields `len(right)`. -/
def jGo (rv rr : Str) (k : Nat) : Nat → Nat
  | 0 => rr.length
  | fuel + 1 =>
    if rr.length ≤ k then k
    else if rv.getD k ' ' ≠ rr.getD k ' ' then k
    else jGo rv rr (k + 1) fuel

/-- The value `j` computed by `ToxEnv.add` from `value`, `right` and `i`. -/
def addJ (v r : Str) (i : Nat) : Nat := jGo v.reverse r.reverse 0 (v.length - i)

/-- Python slicing `s[i:e]` with a possibly negative end index. -/
def pySliceIE (s : Str) (i : Nat) (e : Int) : Str :=
  let e2 : Int := if e < 0 then (s.length : Int) + e else e
  (s.take e2.toNat).drop i

/-- `ToxEnv.add`. -/
def add (e : ToxEnv) (value : Str) : Except Err ToxEnv :=
  match bucket e with
  | .error er => .error er
  | .ok (l, m, r) =>
    let mid := m.getD [[]]
    let i := lcpLen value l
    let j := addJ value r i
    let l2 := l.take i
    let mid2 := addPre (l.drop i) mid
    let mid3 := addSuf (r.take (r.length - j)) mid2
    let r2 := r.drop (r.length - j)
    let v2 := pySliceIE value i ((value.length : Int) - (j : Int))
    .ok ⟨[Piece.lit l2, Piece.opts (mid3 ++ [v2]), Piece.lit r2]⟩

/-! ## The tokenizer (`TOX_ENV_TOKEN_RE` with `re.finditer`)

`finditer` scans for the leftmost match of
`(?P<comma>,[ \t]*)|(?P<newline>\n)|(?P<space>[ \t]+)|(?P<literal>[A-Za-z0-9-_]+)|(?P<options>\x7b[^{}\s]+\x7d)`
and, crucially, a byte at which no alternative matches is skipped (scanning
resumes one byte later) rather than reported. -/

/-- Dropping a matched run never lengthens the string (termination measure
for the scanner). -/
theorem dropWhile_len_le (p : Char → Bool) (l : List Char) :
    (l.dropWhile p).length ≤ l.length := by
  induction l with
  | nil => simp [List.dropWhile]
  | cons c cs ih =>
    rw [List.dropWhile_cons]
    split
    · exact Nat.le_succ_of_le ih
    · exact Nat.le_refl _

/-- A token produced by the scan. -/
inductive Token where
  | comma : Str → Token
  | newline : Token
  | space : Str → Token
  | literal : Str → Token
  | options : Str → Token
deriving DecidableEq

/-- The scan itself, written with a fuel argument so that it is structurally
recursive; every step consumes at least one character, so a fuel of the
input length (as supplied by `tokenize`) never runs out. At each position
the five alternatives are tried on disjoint first characters; a brace group
requires a nonempty interior run of `[^{}\s]` characters followed by a
closing brace, otherwise no pattern matches at the opening brace and that
byte is skipped. -/
def tokenizeF : Nat → Str → List Token
  | _, [] => []
  | 0, _ :: _ => []
  | fuel + 1, c :: cs =>
    if c = ',' then
      Token.comma (cs.takeWhile isHWS) :: tokenizeF fuel (cs.dropWhile isHWS)
    else if c = '\n' then
      Token.newline :: tokenizeF fuel cs
    else if isHWS c then
      Token.space (c :: cs.takeWhile isHWS) :: tokenizeF fuel (cs.dropWhile isHWS)
    else if isLitChar c then
      Token.literal (c :: cs.takeWhile isLitChar) :: tokenizeF fuel (cs.dropWhile isLitChar)
    else if c = '{' then
      if (cs.takeWhile isOptChar).isEmpty then tokenizeF fuel cs
      else if (cs.dropWhile isOptChar).head? = some '}' then
        Token.options (cs.takeWhile isOptChar) :: tokenizeF fuel (cs.dropWhile isOptChar).tail
      else tokenizeF fuel cs
    else tokenizeF fuel cs

/-- The token scan of `TOX_ENV_TOKEN_RE.finditer`. -/
def tokenize (s : Str) : List Token := tokenizeF s.length s

/-- Python `str.strip`: whitespace removed from both ends. -/
def pyStrip (s : Str) : Str :=
  (((s.dropWhile isPySpace).reverse).dropWhile isPySpace).reverse

/-- Python `str.split(sep)` for a one-character separator. -/
def splitOnChar (sep : Char) : Str → List Str
  | [] => [[]]
  | c :: cs =>
    if c = sep then [] :: splitOnChar sep cs
    else
      match splitOnChar sep cs with
      | r :: rs => (c :: r) :: rs
      | [] => [[c]]

/-- `ToxOptions.parse` applied to the interior of a brace-group token:
split on commas, stripping whitespace from each alternative. -/
def optsParseContent (content : Str) : List Str :=
  (splitOnChar ',' content).map pyStrip

/-- The body of `ToxEnv.parse`: a piece per literal or brace-group token;
any other token kind raises `ParseError`. -/
def envParseTokens : List Token → Except Err (List Piece)
  | [] => .ok []
  | Token.options content :: ts =>
    (envParseTokens ts).map fun ps => Piece.opts (optsParseContent content) :: ps
  | Token.literal s :: ts =>
    (envParseTokens ts).map fun ps => Piece.lit s :: ps
  | _ :: _ => .error .parseErr

/-- `ToxEnv.parse`. -/
def envParse (s : Str) : Except Err ToxEnv :=
  (envParseTokens (tokenize s)).map ToxEnv.mk

/-- `",".join` as used by `ToxOptions.__str__`. -/
def joinComma : List Str → Str
  | [] => []
  | [s] => s
  | s :: s2 :: rest => s ++ ',' :: joinComma (s2 :: rest)

/-- `ToxOptions.__str__`: `"{%s}" % ",".join(options)`. -/
def optsStr (os : List Str) : Str := '{' :: (joinComma os ++ ['}'])

/-- The string form of one piece. -/
def pieceStr : Piece → Str
  | .lit s => s
  | .opts os => optsStr os

/-- `ToxEnv.__str__`: concatenation of the pieces' string forms. -/
def envStr (e : ToxEnv) : Str := (e.pieces.map pieceStr).flatten

/-- `ToxEnvlist` from `core.py`. -/
structure ToxEnvlist where
  envs : List ToxEnv
deriving DecidableEq

/-- The token loop of `ToxEnvlist.parse`: comma/newline tokens flush the
buffer through `ToxEnv.parse` (with `assert buf` on an empty buffer), space
tokens are discarded, any other token's matched text is appended to the
buffer, and a nonempty final buffer is flushed at the end. -/
def envlistGo : List Token → Str → Except Err (List ToxEnv)
  | [], buf =>
    if buf.isEmpty then .ok []
    else (envParse buf).map fun e => [e]
  | Token.comma _ :: ts, buf =>
    if buf.isEmpty then .error .assertErr
    else
      match envParse buf with
      | .error er => .error er
      | .ok e => (envlistGo ts []).map fun es => e :: es
  | Token.newline :: ts, buf =>
    if buf.isEmpty then .error .assertErr
    else
      match envParse buf with
      | .error er => .error er
      | .ok e => (envlistGo ts []).map fun es => e :: es
  | Token.space _ :: ts, buf => envlistGo ts buf
  | Token.literal s :: ts, buf => envlistGo ts (buf ++ s)
  | Token.options content :: ts, buf =>
    envlistGo ts (buf ++ ('{' :: (content ++ ['}'])))

/-- `ToxEnvlist.parse`. -/
def envlistParse (s : Str) : Except Err ToxEnvlist :=
  (envlistGo (tokenize s) []).map ToxEnvlist.mk

/-- The buffer abstraction of `ToxEnvlist.parse`'s loop: the buffer contents
reached at each point, ignoring error outcomes. -/
def finalBuf : List Token → Str → Str
  | [], buf => buf
  | Token.comma _ :: ts, _ => finalBuf ts []
  | Token.newline :: ts, _ => finalBuf ts []
  | Token.space _ :: ts, buf => finalBuf ts buf
  | Token.literal s :: ts, buf => finalBuf ts (buf ++ s)
  | Token.options content :: ts, buf => finalBuf ts (buf ++ ('{' :: (content ++ ['}'])))

/-! ## Well-formedness and bucket canonicity -/

/-- Well-formedness per the data model: every alternative set stores at
least one alternative (`ToxOptions.parse`, `hoist` and `add` never build an
empty tuple). -/
def wfPieces (ps : List Piece) : Bool :=
  ps.all fun p => match p with
    | .lit _ => true
    | .opts os => !os.isEmpty

/-- A "free" alternative set: one holding at least two distinct
alternatives, i.e. one that does not collapse to a single literal. -/
def freePiece : Piece → Bool
  | .lit _ => false
  | .opts os => decide (2 ≤ os.dedup.length)

/-- `one` fails exactly on a nonempty list with two distinct members. -/
theorem one_none_iff (x : Str) (rest : List Str) :
    one (x :: rest) = none ↔ 2 ≤ (x :: rest).dedup.length := by
  have h1 : one (x :: rest) = none ↔ ∃ y ∈ rest, ¬(y = x) := by
    simp only [one]
    split
    · rename_i hall
      simp only [List.all_eq_true, decide_eq_true_eq] at hall
      simp only [reduceCtorEq, false_iff, not_exists, not_and, not_not]
      exact fun y hy => hall y hy
    · rename_i hall
      simp only [List.all_eq_true, decide_eq_true_eq] at hall
      push_neg at hall
      simpa using hall
  rw [h1, ← List.card_toFinset, Nat.succ_le_iff, Finset.one_lt_card]
  constructor
  · rintro ⟨y, hy, hne⟩
    exact ⟨x, by simp, y, by simp [hy], fun hxy => hne (hxy ▸ rfl)⟩
  · rintro ⟨a, ha, b, hb, hab⟩
    simp only [List.mem_toFinset, List.mem_cons] at ha hb
    rcases ha with ha | ha
    · rcases hb with hb | hb
      · exact absurd (ha.trans hb.symm) hab
      · exact ⟨b, hb, fun hbx => hab (ha.trans hbx.symm)⟩
    · rcases hb with hb | hb
      · exact ⟨a, ha, fun hax => hab (hax.trans hb.symm)⟩
      · by_cases hax : a = x
        · exact ⟨b, hb, fun hbx => hab (hax.trans hbx.symm)⟩
        · exact ⟨a, ha, hax⟩

/-- A non-collapsing nonempty alternative set is Python-truthy: it has two
distinct members, at most one of which can be the empty string. -/
theorem optsTruthy_of_one_none (x : Str) (rest : List Str)
    (h : one (x :: rest) = none) : optsTruthy (x :: rest) = true := by
  simp only [one] at h
  split at h
  · cases h
  · rename_i hall
    simp only [List.all_eq_true, decide_eq_true_eq] at hall
    push_neg at hall
    obtain ⟨y, hy, hyx⟩ := hall
    simp only [optsTruthy, List.any_eq_true, Bool.not_eq_true', List.isEmpty_eq_false]
    by_cases hx : x = []
    · exact ⟨y, List.mem_cons_of_mem x hy, fun h0 => hyx (h0.trans hx.symm)⟩
    · exact ⟨x, List.mem_cons_self x rest, hx⟩

/-- The bucket walk with a truthy middle already set: it succeeds iff no
further free alternative set occurs. -/
theorem bucketGo_someMid (ps : List Piece) : ∀ l os r,
    wfPieces ps = true → optsTruthy os = true →
    (ps.countP freePiece = 0 → ∃ t, bucketGo ps l (some os) r = .ok t)
    ∧ (1 ≤ ps.countP freePiece → bucketGo ps l (some os) r = .error .hoistErr) := by
  induction ps with
  | nil =>
    intro l os r _ _
    exact ⟨fun _ => ⟨_, rfl⟩, fun h => absurd h (by simp)⟩
  | cons p ps ih =>
    intro l os r hwf hos
    rw [wfPieces, List.all_cons, Bool.and_eq_true] at hwf
    match p with
    | .lit s =>
      have hm : mTruthy (some os) = true := hos
      simp only [bucketGo, hm, if_true, List.countP_cons, freePiece,
        Bool.false_eq_true, if_false, Nat.add_zero]
      exact ih l os (r ++ s) hwf.2 hos
    | .opts os2 =>
      have hm : mTruthy (some os) = true := hos
      have hne : os2 ≠ [] := by
        have := hwf.1
        simpa [List.isEmpty_eq_false] using this
      obtain ⟨x, rest, hx⟩ : ∃ x rest, os2 = x :: rest := by
        cases os2 with
        | nil => exact absurd rfl hne
        | cons a b => exact ⟨a, b, rfl⟩
      subst hx
      cases hone : one (x :: rest) with
      | some v =>
        have hfree : freePiece (.opts (x :: rest)) = false := by
          simp only [freePiece, decide_eq_false_iff_not]
          intro hcon
          rw [← one_none_iff] at hcon
          rw [hone] at hcon
          cases hcon
        simp only [bucketGo, hone, hm, if_true, List.countP_cons, hfree,
          Bool.false_eq_true, if_false, Nat.add_zero]
        exact ih l os (r ++ v) hwf.2 hos
      | none =>
        have hfree : freePiece (.opts (x :: rest)) = true := by
          simp only [freePiece, decide_eq_true_eq]
          exact (one_none_iff x rest).mp hone
        simp only [bucketGo, hone, hm, if_true, List.countP_cons, hfree, if_true]
        exact ⟨fun h => absurd h (by simp), fun _ => trivial⟩

/-- The bucket walk with no middle yet: it succeeds iff at most one free
alternative set occurs. -/
theorem bucketGo_noMid (ps : List Piece) : ∀ l r,
    wfPieces ps = true →
    (ps.countP freePiece ≤ 1 → ∃ t, bucketGo ps l none r = .ok t)
    ∧ (2 ≤ ps.countP freePiece → bucketGo ps l none r = .error .hoistErr) := by
  induction ps with
  | nil =>
    intro l r _
    exact ⟨fun _ => ⟨_, rfl⟩, fun h => absurd h (by simp)⟩
  | cons p ps ih =>
    intro l r hwf
    rw [wfPieces, List.all_cons, Bool.and_eq_true] at hwf
    have hm : mTruthy (none : Option (List Str)) = false := rfl
    match p with
    | .lit s =>
      simp only [bucketGo, hm, Bool.false_eq_true, if_false, List.countP_cons,
        freePiece, Nat.add_zero]
      exact ih (l ++ s) r hwf.2
    | .opts os2 =>
      have hne : os2 ≠ [] := by
        have := hwf.1
        simpa [List.isEmpty_eq_false] using this
      obtain ⟨x, rest, hx⟩ : ∃ x rest, os2 = x :: rest := by
        cases os2 with
        | nil => exact absurd rfl hne
        | cons a b => exact ⟨a, b, rfl⟩
      subst hx
      cases hone : one (x :: rest) with
      | some v =>
        have hfree : freePiece (.opts (x :: rest)) = false := by
          simp only [freePiece, decide_eq_false_iff_not]
          intro hcon
          rw [← one_none_iff] at hcon
          rw [hone] at hcon
          cases hcon
        simp only [bucketGo, hone, hm, Bool.false_eq_true, if_false,
          List.countP_cons, hfree, Nat.add_zero]
        exact ih (l ++ v) r hwf.2
      | none =>
        have hfree : freePiece (.opts (x :: rest)) = true := by
          simp only [freePiece, decide_eq_true_eq]
          exact (one_none_iff x rest).mp hone
        have htr := optsTruthy_of_one_none x rest hone
        simp only [bucketGo, hone, hm, Bool.false_eq_true, if_false,
          List.countP_cons, hfree, if_true]
        have hsome := bucketGo_someMid ps l (x :: rest) r hwf.2 htr
        constructor
        · intro h
          exact hsome.1 (by omega)
        · intro h
          exact hsome.2 (by omega)

/-! ## Generated-set machinery -/

theorem mem_envAll_cons {s : Str} {p : Piece} {ps : List Piece} :
    s ∈ envAll (p :: ps) ↔ ∃ a ∈ pieceAll p, ∃ t ∈ envAll ps, s = a ++ t := by
  simp only [envAll, List.mem_flatMap, List.mem_map]
  constructor
  · rintro ⟨a, ha, t, ht, rfl⟩
    exact ⟨a, ha, t, ht, rfl⟩
  · rintro ⟨a, ha, t, ht, rfl⟩
    exact ⟨a, ha, t, ht, rfl⟩

theorem mem_envAll_append (xs ys : List Piece) (s : Str) :
    s ∈ envAll (xs ++ ys) ↔ ∃ u ∈ envAll xs, ∃ w ∈ envAll ys, s = u ++ w := by
  induction xs generalizing s with
  | nil =>
    simp only [List.nil_append]
    constructor
    · intro h
      refine ⟨[], ?_, s, h, rfl⟩
      simp [envAll]
    · rintro ⟨u, hu, w, hw, rfl⟩
      have hu0 : u = [] := by simpa [envAll] using hu
      subst hu0
      simpa using hw
  | cons p xs ih =>
    rw [List.cons_append, mem_envAll_cons]
    constructor
    · rintro ⟨a, ha, t, ht, rfl⟩
      obtain ⟨u, hu, w, hw, rfl⟩ := (ih t).mp ht
      exact ⟨a ++ u, mem_envAll_cons.mpr ⟨a, ha, u, hu, rfl⟩, w, hw,
        by rw [List.append_assoc]⟩
    · rintro ⟨u, hu, w, hw, rfl⟩
      obtain ⟨a, ha, t, ht, rfl⟩ := mem_envAll_cons.mp hu
      exact ⟨a, ha, t ++ w, (ih (t ++ w)).mpr ⟨t, ht, w, hw, rfl⟩,
        by rw [List.append_assoc]⟩

theorem envAll_ne_nil (ps : List Piece) (hwf : wfPieces ps = true) :
    envAll ps ≠ [] := by
  induction ps with
  | nil => simp [envAll]
  | cons p ps ih =>
    rw [wfPieces, List.all_cons, Bool.and_eq_true] at hwf
    have h2 := ih hwf.2
    have h1 : pieceAll p ≠ [] := by
      match p with
      | .lit s0 => simp [pieceAll]
      | .opts os => simpa [pieceAll, List.isEmpty_eq_false] using hwf.1
    intro hcon
    rw [envAll, List.flatMap_eq_nil_iff] at hcon
    obtain ⟨a, ha⟩ := List.exists_mem_of_ne_nil _ h1
    have := hcon a ha
    rw [List.map_eq_nil_iff] at this
    exact h2 this

/-- Dropping Python-falsy pieces (empty literals, alternative sets whose
alternatives are all empty) does not change the generated set of a
well-formed piece list. -/
theorem mem_envAll_filter (ps : List Piece) (hwf : wfPieces ps = true) :
    ∀ s, s ∈ envAll (ps.filter pieceTruthy) ↔ s ∈ envAll ps := by
  induction ps with
  | nil => simp
  | cons p ps ih =>
    rw [wfPieces, List.all_cons, Bool.and_eq_true] at hwf
    have ih2 := ih hwf.2
    intro s
    by_cases ht : pieceTruthy p = true
    · rw [List.filter_cons_of_pos ht, mem_envAll_cons, mem_envAll_cons]
      constructor
      · rintro ⟨a, ha, t, h2, rfl⟩
        exact ⟨a, ha, t, (ih2 t).mp h2, rfl⟩
      · rintro ⟨a, ha, t, h2, rfl⟩
        exact ⟨a, ha, t, (ih2 t).mpr h2, rfl⟩
    · rw [List.filter_cons_of_neg ht, ih2 s, mem_envAll_cons]
      match p with
      | .lit s0 =>
        have hs0 : s0 = [] := by
          simpa [pieceTruthy, List.isEmpty_iff] using ht
        subst hs0
        simp [pieceAll]
      | .opts os =>
        have hall : ∀ a ∈ os, a = [] := by
          intro a ha
          by_contra hne
          exact ht (by
            simp only [pieceTruthy, optsTruthy, List.any_eq_true,
              Bool.not_eq_true', List.isEmpty_eq_false]
            exact ⟨a, ha, hne⟩)
        have hne : os ≠ [] := by
          simpa [List.isEmpty_eq_false] using hwf.1
        obtain ⟨a0, ha0⟩ := List.exists_mem_of_ne_nil _ hne
        simp only [pieceAll]
        constructor
        · intro h
          exact ⟨a0, ha0, s, h, by rw [hall a0 ha0]; rfl⟩
        · rintro ⟨a, ha, t, h2, rfl⟩
          rw [hall a ha]
          simpa using h2

/-- The alternatives denoted by the optional middle: an absent middle acts
as a single empty alternative. -/
def mids (m : Option (List Str)) : List Str := m.getD [[]]

/-- `one os = some v` means `os` is nonempty with every member equal to
`v`. -/
theorem one_some_all (os : List Str) (v : Str) (h : one os = some v) :
    os ≠ [] ∧ ∀ a ∈ os, a = v := by
  cases os with
  | nil => simp [one] at h
  | cons x rest =>
    simp only [one] at h
    split at h
    · rename_i hall
      injection h with h
      subst h
      refine ⟨by simp, ?_⟩
      intro a ha
      rcases List.mem_cons.mp ha with rfl | ha
      · rfl
      · simpa using List.all_eq_true.mp hall a ha
    · cases h

/-- Set-level correctness of the bucket walk: on success, the denoted
strings `left ++ alt ++ right` are exactly the accumulated strings followed
by the expansions of the remaining pieces, and the middle invariant is
maintained. -/
theorem bucketGo_denote (ps : List Piece) : ∀ l m r l2 m2 r2,
    wfPieces ps = true →
    (m = none → r = []) →
    (∀ os, m = some os → os ≠ [] ∧ optsTruthy os = true) →
    bucketGo ps l m r = .ok (l2, m2, r2) →
    ((∀ s, s ∈ (mids m2).map (fun v => l2 ++ v ++ r2) ↔
        ∃ v ∈ mids m, ∃ t ∈ envAll ps, s = l ++ v ++ r ++ t)
     ∧ (∀ os2, m2 = some os2 → os2 ≠ [] ∧ optsTruthy os2 = true)) := by
  induction ps with
  | nil =>
    intro l m r l2 m2 r2 _ _ hminv hok
    rw [bucketGo] at hok
    injection hok with hok
    obtain ⟨rfl, rfl, rfl⟩ : l = l2 ∧ m = m2 ∧ r = r2 := by
      injection hok with h1 h2
      injection h2 with h2 h3
      exact ⟨h1, h2, h3⟩
    refine ⟨fun s => ?_, hminv⟩
    simp only [List.mem_map, envAll, List.mem_singleton]
    constructor
    · rintro ⟨v, hv, rfl⟩
      exact ⟨v, hv, [], rfl, by simp⟩
    · rintro ⟨v, hv, t, rfl, rfl⟩
      exact ⟨v, hv, by simp⟩
  | cons p ps ih =>
    intro l m r l2 m2 r2 hwf hnone hminv hok
    rw [wfPieces, List.all_cons, Bool.and_eq_true] at hwf
    match p with
    | .lit s0 =>
      rw [bucketGo] at hok
      by_cases hm : mTruthy m = true
      · obtain ⟨os, rfl⟩ : ∃ os, m = some os := by
          cases m with
          | none => exact absurd hm (by simp [mTruthy])
          | some os => exact ⟨os, rfl⟩
        rw [if_pos hm] at hok
        have := ih l (some os) (r ++ s0) l2 m2 r2 hwf.2 (by simp) hminv hok
        refine ⟨fun s => ?_, this.2⟩
        rw [this.1 s]
        constructor
        · rintro ⟨v, hv, t, ht, rfl⟩
          exact ⟨v, hv, s0 ++ t, mem_envAll_cons.mpr ⟨s0, by simp [pieceAll], t, ht, rfl⟩,
            by simp [List.append_assoc]⟩
        · rintro ⟨v, hv, t', ht', rfl⟩
          obtain ⟨a, ha, t, ht, rfl⟩ := mem_envAll_cons.mp ht'
          simp only [pieceAll, List.mem_singleton] at ha
          subst ha
          exact ⟨v, hv, t, ht, by simp [List.append_assoc]⟩
      · have hmn : m = none := by
          cases m with
          | none => rfl
          | some os =>
            have := (hminv os rfl).2
            exact absurd (show mTruthy (some os) = true from this) hm
        subst hmn
        have hr : r = [] := hnone rfl
        subst hr
        rw [if_neg hm] at hok
        have := ih (l ++ s0) none [] l2 m2 r2 hwf.2 (fun _ => rfl) (by simp) hok
        refine ⟨fun s => ?_, this.2⟩
        rw [this.1 s]
        simp only [mids, Option.getD_none, List.mem_singleton]
        constructor
        · rintro ⟨v, rfl, t, ht, rfl⟩
          exact ⟨[], rfl, s0 ++ t,
            mem_envAll_cons.mpr ⟨s0, by simp [pieceAll], t, ht, rfl⟩,
            by simp [List.append_assoc]⟩
        · rintro ⟨v, rfl, t', ht', rfl⟩
          obtain ⟨a, ha, t, ht, rfl⟩ := mem_envAll_cons.mp ht'
          simp only [pieceAll, List.mem_singleton] at ha
          subst ha
          exact ⟨[], rfl, t, ht, by simp [List.append_assoc]⟩
    | .opts os0 =>
      cases hone : one os0 with
      | some v0 =>
        simp only [bucketGo, hone] at hok
        obtain ⟨hne0, hall0⟩ := one_some_all os0 v0 hone
        have hmem0 : v0 ∈ os0 := by
          obtain ⟨a, ha⟩ := List.exists_mem_of_ne_nil _ hne0
          exact (hall0 a ha) ▸ ha
        have hexp : ∀ t' , t' ∈ envAll (Piece.opts os0 :: ps) ↔
            ∃ t ∈ envAll ps, t' = v0 ++ t := by
          intro t'
          rw [mem_envAll_cons]
          constructor
          · rintro ⟨a, ha, t, ht, rfl⟩
            exact ⟨t, ht, by rw [hall0 a ha]⟩
          · rintro ⟨t, ht, rfl⟩
            exact ⟨v0, by simpa [pieceAll] using hmem0, t, ht, rfl⟩
        by_cases hm : mTruthy m = true
        · rw [if_pos hm] at hok
          have hms : ∃ os, m = some os := by
            cases m with
            | none => exact absurd hm (by simp [mTruthy])
            | some os => exact ⟨os, rfl⟩
          obtain ⟨os, rfl⟩ := hms
          have := ih l (some os) (r ++ v0) l2 m2 r2 hwf.2 (by simp) hminv hok
          refine ⟨fun s => ?_, this.2⟩
          rw [this.1 s]
          constructor
          · rintro ⟨v, hv, t, ht, rfl⟩
            exact ⟨v, hv, v0 ++ t, (hexp _).mpr ⟨t, ht, rfl⟩, by simp [List.append_assoc]⟩
          · rintro ⟨v, hv, t', ht', rfl⟩
            obtain ⟨t, ht, rfl⟩ := (hexp t').mp ht'
            exact ⟨v, hv, t, ht, by simp [List.append_assoc]⟩
        · have hmn : m = none := by
            cases m with
            | none => rfl
            | some os =>
              have := (hminv os rfl).2
              exact absurd (show mTruthy (some os) = true from this) hm
          subst hmn
          have hr : r = [] := hnone rfl
          subst hr
          rw [if_neg hm] at hok
          have := ih (l ++ v0) none [] l2 m2 r2 hwf.2 (fun _ => rfl) (by simp) hok
          refine ⟨fun s => ?_, this.2⟩
          rw [this.1 s]
          simp only [mids, Option.getD_none, List.mem_singleton]
          constructor
          · rintro ⟨v, rfl, t, ht, rfl⟩
            exact ⟨[], rfl, v0 ++ t, (hexp _).mpr ⟨t, ht, rfl⟩, by simp [List.append_assoc]⟩
          · rintro ⟨v, rfl, t', ht', rfl⟩
            obtain ⟨t, ht, rfl⟩ := (hexp t').mp ht'
            exact ⟨[], rfl, t, ht, by simp [List.append_assoc]⟩
      | none =>
        simp only [bucketGo, hone] at hok
        have hm : mTruthy m = false := by
          by_contra hcon
          rw [if_pos (by revert hcon; cases mTruthy m <;> simp)] at hok
          cases hok
        have hmn : m = none := by
          cases m with
          | none => rfl
          | some os =>
            have := (hminv os rfl).2
            rw [show mTruthy (some os) = optsTruthy os from rfl, this] at hm
            cases hm
        subst hmn
        have hr : r = [] := hnone rfl
        subst hr
        rw [if_neg (by simp [hm])] at hok
        have hne0 : os0 ≠ [] := by
          simpa [List.isEmpty_eq_false] using hwf.1
        obtain ⟨x, rest, rfl⟩ : ∃ x rest, os0 = x :: rest := by
          cases os0 with
          | nil => exact absurd rfl hne0
          | cons a b => exact ⟨a, b, rfl⟩
        have htr := optsTruthy_of_one_none x rest hone
        have := ih l (some (x :: rest)) [] l2 m2 r2 hwf.2 (by simp)
          (by rintro os2 h; injection h with h; subst h; exact ⟨by simp, htr⟩) hok
        refine ⟨fun s => ?_, this.2⟩
        rw [this.1 s]
        simp only [mids, Option.getD_some, Option.getD_none, List.mem_singleton]
        constructor
        · rintro ⟨v, hv, t, ht, rfl⟩
          exact ⟨[], rfl, v ++ t,
            mem_envAll_cons.mpr ⟨v, by simpa [pieceAll] using hv, t, ht, rfl⟩,
            by simp [List.append_assoc]⟩
        · rintro ⟨v, rfl, t', ht', rfl⟩
          obtain ⟨a, ha, t, ht, rfl⟩ := mem_envAll_cons.mp ht'
          exact ⟨a, by simpa [pieceAll] using ha, t, ht, by simp [List.append_assoc]⟩

/-- Bucket correctness at the entry point: the canonical triple denotes the
generated set of the spec. -/
theorem bucket_set (e : ToxEnv) (l : Str) (m : Option (List Str)) (r : Str)
    (hwf : wfPieces e.pieces = true) (hok : bucket e = .ok (l, m, r)) :
    (∀ s, s ∈ (mids m).map (fun v => l ++ v ++ r) ↔ s ∈ envAll e.pieces)
    ∧ (∀ os, m = some os → os ≠ [] ∧ optsTruthy os = true) := by
  have := bucketGo_denote e.pieces [] none [] l m r hwf (fun _ => rfl) (by simp) hok
  refine ⟨fun s => ?_, this.2⟩
  rw [this.1 s]
  simp only [mids, Option.getD_none, List.mem_singleton]
  constructor
  · rintro ⟨v, rfl, t, ht, rfl⟩
    simpa using ht
  · intro h
    exact ⟨[], rfl, s, h, by simp⟩

/-! ## Hoist preserves the generated set -/

theorem except_map_ok {α β : Type _} (f : α → β) (x : Except Err α) (y : β)
    (h : Except.map f x = .ok y) : ∃ z, x = .ok z ∧ y = f z := by
  cases x with
  | error e => simp [Except.map] at h
  | ok z =>
    refine ⟨z, rfl, ?_⟩
    simpa [Except.map] using h.symm

theorem isPre_eq (p s : Str) : List.isPrefixOf p s = true ↔ p <+: s :=
  List.isPrefixOf_iff_prefix

theorem pre_append_drop {pre s0 : Str} (h : pre <+: s0) :
    pre ++ s0.drop pre.length = s0 := by
  obtain ⟨u, rfl⟩ := h
  rw [List.drop_left]

theorem prefix_cases (p a t : Str) (h : p <+: a ++ t) : p <+: a ∨ a <+: p := by
  by_cases hle : p.length ≤ a.length
  · exact Or.inl (List.prefix_of_prefix_length_le h (List.prefix_append a t) hle)
  · exact Or.inr (List.prefix_of_prefix_length_le (List.prefix_append a t) h
      (Nat.le_of_lt (Nat.lt_of_not_le hle)))

theorem mem_envAll_three (a : Str) (os : List Str) (b : Str) (s : Str) :
    s ∈ envAll [Piece.lit a, Piece.opts os, Piece.lit b] ↔
      ∃ v ∈ os, s = a ++ v ++ b := by
  rw [mem_envAll_cons]
  simp only [pieceAll]
  constructor
  · rintro ⟨a2, ha2, t, ht, rfl⟩
    simp only [List.mem_singleton] at ha2
    subst ha2
    obtain ⟨v, hv, t2, ht2, rfl⟩ := mem_envAll_cons.mp ht
    simp only [pieceAll] at hv
    obtain ⟨b2, hb2, t3, ht3, rfl⟩ := mem_envAll_cons.mp ht2
    simp only [pieceAll, List.mem_singleton] at hb2
    subst hb2
    have ht30 : t3 = [] := by simpa [envAll] using ht3
    subst ht30
    exact ⟨v, hv, by simp [List.append_assoc]⟩
  · rintro ⟨v, hv, rfl⟩
    have hb2 : b ∈ envAll [Piece.lit b] := by simp [envAll, pieceAll]
    refine ⟨a, by simp, v ++ b, ?_, List.append_assoc a v b⟩
    exact mem_envAll_cons.mpr ⟨v, by simpa [pieceAll] using hv, b, hb2, rfl⟩

/-- Expanding a collapsing alternative set is, member-wise, prepending its
unique value. -/
theorem mem_envAll_opts_one (os : List Str) (v : Str) (ps : List Piece)
    (h : one os = some v) (t' : Str) :
    t' ∈ envAll (Piece.opts os :: ps) ↔ ∃ t ∈ envAll ps, t' = v ++ t := by
  obtain ⟨hne, hall⟩ := one_some_all os v h
  have hmem : v ∈ os := by
    obtain ⟨a, ha⟩ := List.exists_mem_of_ne_nil _ hne
    exact (hall a ha) ▸ ha
  rw [mem_envAll_cons]
  constructor
  · rintro ⟨a, ha, t, ht, rfl⟩
    exact ⟨t, ht, by rw [hall a (by simpa [pieceAll] using ha)]⟩
  · rintro ⟨t, ht, rfl⟩
    exact ⟨v, by simpa [pieceAll] using hmem, t, ht, rfl⟩

/-- `_hoist_simple` preserves the generated set of a well-formed spec. -/
theorem hoistSimple_set (e : ToxEnv) (pre : Str) (out : ToxEnv)
    (hwf : wfPieces e.pieces = true) (hok : hoistSimple e pre = .ok out) :
    ∀ s, s ∈ envAll out.pieces ↔ s ∈ envAll e.pieces := by
  cases hb : bucket e with
  | error er =>
    simp only [hoistSimple, hb] at hok
    cases hok
  | ok t =>
    obtain ⟨l, m, r⟩ := t
    simp only [hoistSimple, hb] at hok
    by_cases hpre : pre.isPrefixOf l
    · rw [if_pos hpre] at hok
      injection hok with hok
      subst hok
      have hBS := bucket_set e l m r hwf hb
      have hmidne : mids m ≠ [] := by
        cases m with
        | none => simp [mids]
        | some os => exact (hBS.2 os rfl).1
      have hmapne : addPre (l.drop pre.length) (m.getD [[]]) ≠ [] := by
        intro hcon
        have hcon2 : List.map (fun x => l.drop pre.length ++ x) (m.getD [[]]) = [] := hcon
        have hnil := List.map_eq_nil_iff.mp hcon2
        exact hmidne (by simpa [mids] using hnil)
      have hwf3 : wfPieces [Piece.lit (l.take pre.length),
          Piece.opts (addPre (l.drop pre.length) (m.getD [[]])),
          Piece.lit r] = true := by
        simp [wfPieces, List.isEmpty_eq_false, hmapne]
      have hsplit : ∀ v : Str,
          l ++ v ++ r = l.take pre.length ++ (l.drop pre.length ++ v) ++ r := by
        intro v
        conv_lhs => rw [← List.take_append_drop pre.length l]
        rw [List.append_assoc (l.take pre.length) (l.drop pre.length) v]
      intro s
      show s ∈ envAll (pieceFilter3 _ _ _) ↔ _
      rw [pieceFilter3, mem_envAll_filter _ hwf3 s, mem_envAll_three]
      rw [← hBS.1 s]
      simp only [addPre, List.mem_map, mids]
      constructor
      · rintro ⟨v2, ⟨v, hv, rfl⟩, rfl⟩
        exact ⟨v, hv, hsplit v⟩
      · rintro ⟨v, hv, rfl⟩
        exact ⟨l.drop pre.length ++ v, ⟨v, hv, rfl⟩, hsplit v⟩
    · rw [if_neg hpre] at hok
      cases hok

/-- The general hoist loop preserves the generated set of a well-formed
spec, given the entry guard that every generated string starts with the
requested prefix. -/
theorem hoistDiffGo_set (ps : List Piece) : ∀ pre out,
    wfPieces ps = true →
    (∀ t ∈ envAll ps, pre <+: t) →
    hoistDiffGo pre ps = .ok out →
    ∀ s, s ∈ envAll out ↔ s ∈ envAll ps := by
  induction ps with
  | nil =>
    intro pre out _ _ hok
    rw [hoistDiffGo] at hok
    injection hok with hok
    subst hok
    exact fun s => Iff.rfl
  | cons p ps ih =>
    intro pre out hwf hcomp hok
    rw [wfPieces, List.all_cons, Bool.and_eq_true] at hwf
    cases p with
    | lit s0 =>
      rw [hoistDiffGo] at hok
      by_cases hst : pieceStarts pre (Piece.lit s0) = true
      · rw [if_pos hst] at hok
        injection hok with hok
        subst hok
        have hpre : pre <+: s0 := (isPre_eq pre s0).mp hst
        have hps : pre ++ s0.drop pre.length = s0 := pre_append_drop hpre
        intro s
        rw [mem_envAll_cons, mem_envAll_cons]
        simp only [pieceAll, List.mem_singleton, exists_eq_left]
        by_cases hd : s0.drop pre.length = []
        · have hs0 : pre = s0 := by rw [← hps, hd, List.append_nil]
          have hft : pieceTruthy (removePrePiece pre (Piece.lit s0)) = false := by
            simp [removePrePiece, pieceTruthy, hd]
          rw [hft]
          simp only [Bool.false_eq_true, if_false, List.nil_append]
          constructor
          · rintro ⟨t, ht, rfl⟩
            exact ⟨t, (mem_envAll_filter ps hwf.2 t).mp ht, by rw [hs0]⟩
          · rintro ⟨t, ht, rfl⟩
            exact ⟨t, (mem_envAll_filter ps hwf.2 t).mpr ht, by rw [hs0]⟩
        · have hft : pieceTruthy (removePrePiece pre (Piece.lit s0)) = true := by
            simp [removePrePiece, pieceTruthy, List.isEmpty_eq_false, hd]
          rw [hft]
          simp only [if_true, List.singleton_append]
          constructor
          · rintro ⟨t1, ht1, rfl⟩
            obtain ⟨d, hd2, t2, ht2, rfl⟩ := mem_envAll_cons.mp ht1
            simp only [removePrePiece, pieceAll, List.mem_singleton] at hd2
            subst hd2
            refine ⟨t2, (mem_envAll_filter ps hwf.2 t2).mp ht2, ?_⟩
            rw [← List.append_assoc, hps]
          · rintro ⟨t2, ht2, rfl⟩
            refine ⟨s0.drop pre.length ++ t2, ?_, ?_⟩
            · exact mem_envAll_cons.mpr ⟨s0.drop pre.length,
                by simp [removePrePiece, pieceAll], t2,
                (mem_envAll_filter ps hwf.2 t2).mpr ht2, rfl⟩
            · rw [← List.append_assoc, hps]
      · rw [if_neg hst] at hok
        by_cases hsp : s0.isPrefixOf pre
        · rw [if_pos hsp] at hok
          obtain ⟨out2, hok2, rfl⟩ := except_map_ok _ _ _ hok
          have hs0pre : s0 <+: pre := (isPre_eq s0 pre).mp hsp
          have hcomp2 : ∀ t ∈ envAll ps, pre.drop s0.length <+: t := by
            intro t ht
            have hm : s0 ++ t ∈ envAll (Piece.lit s0 :: ps) :=
              mem_envAll_cons.mpr ⟨s0, by simp [pieceAll], t, ht, rfl⟩
            have h3 := hcomp _ hm
            rw [← pre_append_drop hs0pre] at h3
            exact (List.prefix_append_right_inj s0).mp h3
          have hIH := ih (pre.drop s0.length) out2 hwf.2 hcomp2 hok2
          intro s
          rw [mem_envAll_cons, mem_envAll_cons]
          simp only [pieceAll, List.mem_singleton, exists_eq_left]
          constructor
          · rintro ⟨t, ht, rfl⟩
            exact ⟨t, (hIH t).mp ht, rfl⟩
          · rintro ⟨t, ht, rfl⟩
            exact ⟨t, (hIH t).mpr ht, rfl⟩
        · rw [if_neg hsp] at hok
          cases hok
    | opts os =>
      rw [hoistDiffGo] at hok
      by_cases hst : pieceStarts pre (Piece.opts os) = true
      · rw [if_pos hst] at hok
        injection hok with hok
        subst hok
        have hallpre : ∀ a ∈ os, pre <+: a := fun a ha =>
          (isPre_eq pre a).mp (List.all_eq_true.mp hst a ha)
        have hneos : os ≠ [] := by
          simpa [List.isEmpty_eq_false] using hwf.1
        intro s
        rw [mem_envAll_cons, mem_envAll_cons]
        simp only [pieceAll, List.mem_singleton, exists_eq_left]
        by_cases hdt : pieceTruthy (removePrePiece pre (Piece.opts os)) = true
        · rw [hdt]
          simp only [if_true, List.singleton_append]
          constructor
          · rintro ⟨t1, ht1, rfl⟩
            obtain ⟨x, hx, t2, ht2, rfl⟩ := mem_envAll_cons.mp ht1
            simp only [removePrePiece, pieceAll, List.mem_map] at hx
            obtain ⟨a0, ha0, rfl⟩ := hx
            refine ⟨a0, ha0, t2, (mem_envAll_filter ps hwf.2 t2).mp ht2, ?_⟩
            rw [← List.append_assoc, pre_append_drop (hallpre a0 ha0)]
          · rintro ⟨a0, ha0, t2, ht2, rfl⟩
            refine ⟨a0.drop pre.length ++ t2, ?_, ?_⟩
            · exact mem_envAll_cons.mpr ⟨a0.drop pre.length,
                by simp only [removePrePiece, pieceAll, List.mem_map]; exact ⟨a0, ha0, rfl⟩,
                t2, (mem_envAll_filter ps hwf.2 t2).mpr ht2, rfl⟩
            · rw [← List.append_assoc, pre_append_drop (hallpre a0 ha0)]
        · have halleq : ∀ a ∈ os, a = pre := by
            intro a ha
            have hdrop : a.drop pre.length = [] := by
              by_contra hcon
              exact hdt (by
                simp only [removePrePiece, pieceTruthy, optsTruthy, List.any_eq_true,
                  List.mem_map, Bool.not_eq_true', List.isEmpty_eq_false]
                exact ⟨a.drop pre.length, ⟨a, ha, rfl⟩, hcon⟩)
            rw [← pre_append_drop (hallpre a ha), hdrop, List.append_nil]
          rw [Bool.not_eq_true] at hdt
          rw [hdt]
          simp only [Bool.false_eq_true, if_false, List.nil_append]
          constructor
          · rintro ⟨t, ht, rfl⟩
            obtain ⟨a0, ha0⟩ := List.exists_mem_of_ne_nil _ hneos
            exact ⟨a0, ha0, t, (mem_envAll_filter ps hwf.2 t).mp ht,
              by rw [halleq a0 ha0]⟩
          · rintro ⟨a0, ha0, t, ht, rfl⟩
            exact ⟨t, (mem_envAll_filter ps hwf.2 t).mpr ht, by rw [halleq a0 ha0]⟩
      · rw [if_neg hst] at hok
        cases hone : one os with
        | none =>
          simp only [hone] at hok
          cases hok
        | some v =>
          simp only [hone] at hok
          obtain ⟨hneos, hallv⟩ := one_some_all os v hone
          by_cases hp2 : (removePreStr pre v).isEmpty = true
          · rw [if_pos hp2] at hok
            injection hok with hok
            subst hok
            intro s
            rw [mem_envAll_cons, mem_envAll_opts_one os v ps hone]
            simp only [pieceAll, List.mem_singleton, exists_eq_left]
            constructor
            · rintro ⟨t, ht, rfl⟩
              exact ⟨t, (mem_envAll_filter ps hwf.2 t).mp ht, rfl⟩
            · rintro ⟨t, ht, rfl⟩
              exact ⟨t, (mem_envAll_filter ps hwf.2 t).mpr ht, rfl⟩
          · rw [if_neg hp2] at hok
            obtain ⟨out2, hok2, rfl⟩ := except_map_ok _ _ _ hok
            by_cases hvp : List.isPrefixOf v pre = true
            · have hvpre : v <+: pre := (isPre_eq v pre).mp hvp
              have hpre2 : removePreStr pre v = pre.drop v.length := by
                simp [removePreStr, hvp]
              have hcomp2 : ∀ t ∈ envAll ps, removePreStr pre v <+: t := by
                intro t ht
                have hm : v ++ t ∈ envAll (Piece.opts os :: ps) :=
                  (mem_envAll_opts_one os v ps hone _).mpr ⟨t, ht, rfl⟩
                have h3 := hcomp _ hm
                rw [← pre_append_drop hvpre] at h3
                rw [hpre2]
                exact (List.prefix_append_right_inj v).mp h3
              have hIH := ih (removePreStr pre v) out2 hwf.2 hcomp2 hok2
              intro s
              rw [mem_envAll_cons, mem_envAll_opts_one os v ps hone]
              simp only [pieceAll, List.mem_singleton, exists_eq_left]
              constructor
              · rintro ⟨t, ht, rfl⟩
                exact ⟨t, (hIH t).mp ht, rfl⟩
              · rintro ⟨t, ht, rfl⟩
                exact ⟨t, (hIH t).mpr ht, rfl⟩
            · exfalso
              obtain ⟨t0, ht0⟩ := List.exists_mem_of_ne_nil _ (envAll_ne_nil ps hwf.2)
              have hm : v ++ t0 ∈ envAll (Piece.opts os :: ps) :=
                (mem_envAll_opts_one os v ps hone _).mpr ⟨t0, ht0, rfl⟩
              have h3 := hcomp _ hm
              rcases prefix_cases pre v t0 h3 with hc | hc
              · apply hst
                simp only [pieceStarts, List.all_eq_true]
                intro a ha
                rw [hallv a ha]
                exact (isPre_eq pre v).mpr hc
              · exact hvp ((isPre_eq v pre).mpr hc)


/-- `_hoist_difficult` preserves the generated set of a well-formed spec. -/
theorem hoistDiff_set (e : ToxEnv) (pre : Str) (out : ToxEnv)
    (hwf : wfPieces e.pieces = true) (hok : hoistDiff e pre = .ok out) :
    ∀ s, s ∈ envAll out.pieces ↔ s ∈ envAll e.pieces := by
  rw [hoistDiff] at hok
  by_cases hg : envAllStarts pre e.pieces = true
  · rw [if_pos hg] at hok
    obtain ⟨out', hok', rfl⟩ := except_map_ok _ _ _ hok
    have hcomp : ∀ t ∈ envAll e.pieces, pre <+: t := by
      intro t ht
      exact (isPre_eq pre t).mp (List.all_eq_true.mp hg t ht)
    exact hoistDiffGo_set e.pieces pre out' hwf hcomp hok'
  · rw [if_neg hg] at hok
    cases hok

/-! ## Tokenizer lemmas -/

theorem takeWhile_app_stop (p : Char → Bool) (l r : Str)
    (hl : ∀ c ∈ l, p c = true)
    (hr : ∀ c rest, r = c :: rest → p c = false) :
    (l ++ r).takeWhile p = l ∧ (l ++ r).dropWhile p = r := by
  induction l with
  | nil =>
    cases r with
    | nil => simp
    | cons c rest =>
      simp [List.takeWhile_cons, List.dropWhile_cons, hr c rest rfl]
  | cons a l ih =>
    have ha : p a = true := hl a (by simp)
    have hrec := ih fun c hc => hl c (by simp [hc])
    simp [List.takeWhile_cons, List.dropWhile_cons, ha, hrec.1, hrec.2]

/-- The fuel argument of the scanner is irrelevant once it covers the input
length. -/
theorem tokenizeF_fuel (f1 : Nat) : ∀ f2 s, s.length ≤ f1 → s.length ≤ f2 →
    tokenizeF f1 s = tokenizeF f2 s := by
  induction f1 with
  | zero =>
    intro f2 s h1 _
    have hs : s = [] := List.eq_nil_of_length_eq_zero (Nat.le_zero.mp h1)
    subst hs
    cases f2 <;> rfl
  | succ f ih =>
    intro f2 s h1 h2
    cases s with
    | nil => cases f2 <;> rfl
    | cons c cs =>
      cases f2 with
      | zero => exact absurd h2 (by simp)
      | succ g =>
        have hcs1 : cs.length ≤ f := Nat.le_of_succ_le_succ h1
        have hcs2 : cs.length ≤ g := Nat.le_of_succ_le_succ h2
        have hd : ∀ p : Char → Bool,
            (cs.dropWhile p).length ≤ f ∧ (cs.dropWhile p).length ≤ g := fun p =>
          ⟨Nat.le_trans (dropWhile_len_le p cs) hcs1,
           Nat.le_trans (dropWhile_len_le p cs) hcs2⟩
        have htl : ((cs.dropWhile isOptChar).tail).length ≤ f
            ∧ ((cs.dropWhile isOptChar).tail).length ≤ g := by
          rw [List.length_tail]
          exact ⟨Nat.le_trans (Nat.le_trans (Nat.sub_le _ 1) (dropWhile_len_le _ cs)) hcs1,
            Nat.le_trans (Nat.le_trans (Nat.sub_le _ 1) (dropWhile_len_le _ cs)) hcs2⟩
        simp only [tokenizeF]
        split_ifs <;>
          first
            | rfl
            | exact ih g cs hcs1 hcs2
            | exact ih g _ (hd _).1 (hd _).2
            | exact congrArg _ (ih g cs hcs1 hcs2)
            | exact congrArg _ (ih g _ (hd _).1 (hd _).2)
            | exact congrArg _ (ih g _ htl.1 htl.2)

theorem tokenizeF_eq_tokenize (f : Nat) (s : Str) (h : s.length ≤ f) :
    tokenizeF f s = tokenize s :=
  tokenizeF_fuel f s.length s h (Nat.le_refl _)

/-- A byte at which no token pattern can start is skipped by the scan. -/
theorem tok_skip (c : Char) (s : Str)
    (h1 : ¬(c = ',')) (h2 : ¬(c = '\n')) (h3 : ¬(isHWS c = true))
    (h4 : ¬(isLitChar c = true)) (h5 : ¬(c = '{')) :
    tokenize (c :: s) = tokenize s := by
  show tokenizeF (c :: s).length (c :: s) = tokenize s
  simp only [List.length_cons, tokenizeF, if_neg h1, if_neg h2, if_neg h3,
    if_neg h4, if_neg h5]
  rfl

/-- Character-class facts about literal-run characters. -/
theorem litChar_facts (c : Char) (h : isLitChar c = true) :
    ¬(c = ',') ∧ ¬(c = '\n') ∧ ¬(isHWS c = true) ∧ isOptChar c = true := by
  refine ⟨?_, ?_, ?_, ?_⟩
  · intro hc; subst hc; exact absurd h (by decide)
  · intro hc; subst hc; exact absurd h (by decide)
  · intro hh
    rcases (by simpa [isHWS] using hh : c = ' ' ∨ c = '\t') with rfl | rfl
    · exact absurd h (by decide)
    · exact absurd h (by decide)
  · have hb1 : ¬(c = '{') := fun hc => by subst hc; exact absurd h (by decide)
    have hb2 : ¬(c = '}') := fun hc => by subst hc; exact absurd h (by decide)
    have hps : isPySpace c = false := by
      by_contra hcon
      rw [Bool.not_eq_false] at hcon
      have hor : ((((c = ' ' ∨ c = '\t') ∨ c = '\n') ∨ c = '\r') ∨ c = '\x0b')
          ∨ c = '\x0c' := by
        simpa [isPySpace] using hcon
      rcases hor with ((((rfl | rfl) | rfl) | rfl) | rfl) | rfl <;>
        exact absurd h (by decide)
    simp [isOptChar, hb1, hb2, hps]

/-- A maximal literal run at the head of the input scans to one literal
token. -/
theorem tokenize_lit (run rest : Str) (hne : run ≠ [])
    (hall : ∀ c ∈ run, isLitChar c = true)
    (hstop : ∀ c rs, rest = c :: rs → isLitChar c = false) :
    tokenize (run ++ rest) = Token.literal run :: tokenize rest := by
  obtain ⟨c, run2, rfl⟩ : ∃ c run2, run = c :: run2 := by
    cases run with
    | nil => exact absurd rfl hne
    | cons a b => exact ⟨a, b, rfl⟩
  have hc : isLitChar c = true := hall c (by simp)
  obtain ⟨h1, h2, h3, _⟩ := litChar_facts c hc
  show tokenizeF (c :: (run2 ++ rest)).length (c :: (run2 ++ rest)) = _
  simp only [List.length_cons, tokenizeF, if_neg h1, if_neg h2, if_neg h3, hc, if_true]
  have htw := takeWhile_app_stop isLitChar run2 rest
    (fun c2 hc2 => hall c2 (by simp [hc2])) hstop
  rw [htw.1, htw.2]
  exact congrArg _ (tokenizeF_eq_tokenize _ _ (by simp))

/-- A well-formed brace group at the head of the input scans to one
brace-group token. -/
theorem tokenize_brace (content rest : Str) (hne : content ≠ [])
    (hall : ∀ c ∈ content, isOptChar c = true) :
    tokenize ('{' :: (content ++ '}' :: rest))
      = Token.options content :: tokenize rest := by
  show tokenizeF ('{' :: (content ++ '}' :: rest)).length ('{' :: (content ++ '}' :: rest)) = _
  rw [List.length_cons, tokenizeF]
  rw [if_neg (show ¬(('{' : Char) = ',') by decide),
    if_neg (show ¬(('{' : Char) = '\n') by decide),
    if_neg (show ¬(isHWS '{' = true) by decide),
    if_neg (show ¬(isLitChar '{' = true) by decide),
    if_pos (show ('{' : Char) = '{' from rfl)]
  have htw := takeWhile_app_stop isOptChar content ('}' :: rest) hall
    (fun c2 rs h => by
      injection h with hh1 hh2
      subst hh1
      decide)
  rw [htw.1, htw.2]
  have hie : ¬(content.isEmpty = true) := by
    cases content with
    | nil => exact absurd rfl hne
    | cons a b => simp
  rw [if_neg hie, if_pos (show (('}' :: rest).head? = some '}') from rfl),
    List.tail_cons]
  refine congrArg _ (tokenizeF_eq_tokenize _ _ ?_)
  simp [List.length_append]
  omega

/-- An empty brace pair is skipped whole by the scan. -/
theorem tok_skip_empty_brace (rest : Str) :
    tokenize ('{' :: '}' :: rest) = tokenize rest := by
  show tokenizeF ('{' :: '}' :: rest).length ('{' :: '}' :: rest) = _
  rw [List.length_cons, tokenizeF]
  rw [if_neg (show ¬(('{' : Char) = ',') by decide),
    if_neg (show ¬(('{' : Char) = '\n') by decide),
    if_neg (show ¬(isHWS '{' = true) by decide),
    if_neg (show ¬(isLitChar '{' = true) by decide),
    if_pos (show ('{' : Char) = '{' from rfl)]
  have h1 : (('}' :: rest).takeWhile isOptChar) = [] := by
    rw [List.takeWhile_cons]
    simp [show isOptChar '}' = false from by decide]
  rw [h1]
  simp only [List.isEmpty_nil, if_true]
  show tokenize ('}' :: rest) = tokenize rest
  exact tok_skip '}' rest (by decide) (by decide) (by decide) (by decide) (by decide)

/-- Every brace-group token produced by the scan has a nonempty interior
over the `[^{}\s]` character class. -/
theorem tokenizeF_opts_inv (fuel : Nat) : ∀ s t, t ∈ tokenizeF fuel s →
    ∀ content, t = Token.options content →
      content ≠ [] ∧ ∀ c ∈ content, isOptChar c = true := by
  induction fuel with
  | zero =>
    intro s t ht
    cases s <;> simp [tokenizeF] at ht
  | succ f ih =>
    intro s t ht
    cases s with
    | nil => simp [tokenizeF] at ht
    | cons c cs =>
      simp only [tokenizeF] at ht
      split_ifs at ht with h1 h2 h3 h4 h5 h6 h7
      · rcases List.mem_cons.mp ht with rfl | ht2
        · intro content hcon; cases hcon
        · exact ih _ t ht2
      · rcases List.mem_cons.mp ht with rfl | ht2
        · intro content hcon; cases hcon
        · exact ih _ t ht2
      · rcases List.mem_cons.mp ht with rfl | ht2
        · intro content hcon; cases hcon
        · exact ih _ t ht2
      · rcases List.mem_cons.mp ht with rfl | ht2
        · intro content hcon; cases hcon
        · exact ih _ t ht2
      · exact ih _ t ht
      · rcases List.mem_cons.mp ht with rfl | ht2
        · intro content hcon
          injection hcon with hcon
          subst hcon
          constructor
          · intro hcon2
            exact h6 (by simp [hcon2])
          · intro c2 hc2
            exact List.mem_takeWhile_imp hc2
        · exact ih _ t ht2
      · exact ih _ t ht
      · exact ih _ t ht

theorem tokenize_opts_inv (s : Str) (t : Token) (ht : t ∈ tokenize s)
    (content : Str) (hc : t = Token.options content) :
    content ≠ [] ∧ ∀ c ∈ content, isOptChar c = true :=
  tokenizeF_opts_inv s.length s t ht content hc

theorem splitOnChar_ne_nil (sep : Char) (l : Str) : splitOnChar sep l ≠ [] := by
  cases l with
  | nil => simp [splitOnChar]
  | cons c cs =>
    rw [splitOnChar]
    split
    · simp
    · cases splitOnChar sep cs <;> simp

/-- Characters of any segment of a split come from the input and are never
the separator. -/
theorem splitOnChar_chars (sep : Char) (l : Str) :
    ∀ seg ∈ splitOnChar sep l, ∀ c ∈ seg, c ∈ l ∧ ¬(c = sep) := by
  induction l with
  | nil =>
    intro seg hseg c hc
    rw [splitOnChar, List.mem_singleton] at hseg
    subst hseg
    simp at hc
  | cons a l ih =>
    intro seg hseg c hc
    rw [splitOnChar] at hseg
    by_cases ha : a = sep
    · rw [if_pos ha] at hseg
      rcases List.mem_cons.mp hseg with rfl | h2
      · simp at hc
      · have hr := ih seg h2 c hc
        exact ⟨List.mem_cons_of_mem _ hr.1, hr.2⟩
    · rw [if_neg ha] at hseg
      cases hsp : splitOnChar sep l with
      | nil => exact absurd hsp (splitOnChar_ne_nil sep l)
      | cons r rs =>
        rw [hsp] at hseg
        rcases List.mem_cons.mp hseg with rfl | h2
        · rcases List.mem_cons.mp hc with rfl | hc2
          · exact ⟨by simp, ha⟩
          · have hr := ih r (by rw [hsp]; simp) c hc2
            exact ⟨List.mem_cons_of_mem _ hr.1, hr.2⟩
        · have hr := ih seg (by rw [hsp]; exact List.mem_cons_of_mem _ h2) c hc
          exact ⟨List.mem_cons_of_mem _ hr.1, hr.2⟩

/-- Stripping only removes characters. -/
theorem pyStrip_subset (s : Str) : ∀ c ∈ pyStrip s, c ∈ s := by
  intro c hc
  rw [pyStrip, List.mem_reverse] at hc
  have h1 := (List.dropWhile_sublist (l := (s.dropWhile isPySpace).reverse)
    (p := isPySpace)).subset hc
  rw [List.mem_reverse] at h1
  exact (List.dropWhile_sublist (l := s) (p := isPySpace)).subset h1

theorem dropWhile_none (p : Char → Bool) (s : Str) (h : ∀ c ∈ s, p c = false) :
    s.dropWhile p = s := by
  cases s with
  | nil => rfl
  | cons c cs =>
    rw [List.dropWhile_cons]
    simp [h c (by simp)]

theorem pyStrip_id (s : Str) (h : ∀ c ∈ s, isPySpace c = false) : pyStrip s = s := by
  rw [pyStrip, dropWhile_none _ _ h,
    dropWhile_none _ _ (fun c hc => h c (List.mem_reverse.mp hc))]
  exact List.reverse_reverse s

theorem optChar_not_space (c : Char) (h : isOptChar c = true) : isPySpace c = false := by
  by_contra hcon
  rw [Bool.not_eq_false] at hcon
  simp [isOptChar, hcon] at h

theorem splitOnChar_app (sep : Char) (a : Str) : ∀ rest : Str,
    (∀ c ∈ a, ¬(c = sep)) →
    splitOnChar sep (a ++ sep :: rest) = a :: splitOnChar sep rest := by
  induction a with
  | nil =>
    intro rest _
    simp [splitOnChar]
  | cons c a ih =>
    intro rest h
    have hc : ¬(c = sep) := h c (by simp)
    rw [List.cons_append, splitOnChar, if_neg hc,
      ih rest (fun c2 hc2 => h c2 (by simp [hc2]))]

theorem splitOnChar_nosep (sep : Char) (a : Str) (h : ∀ c ∈ a, ¬(c = sep)) :
    splitOnChar sep a = [a] := by
  induction a with
  | nil => rfl
  | cons c a ih =>
    have hc : ¬(c = sep) := h c (by simp)
    rw [splitOnChar, if_neg hc, ih (fun c2 hc2 => h c2 (by simp [hc2]))]

theorem joinComma_split (os : List Str) (hne : os ≠ [])
    (h : ∀ a ∈ os, ∀ c ∈ a, ¬(c = ',')) :
    splitOnChar ',' (joinComma os) = os := by
  induction os with
  | nil => exact absurd rfl hne
  | cons a t ih =>
    cases t with
    | nil =>
      rw [joinComma]
      exact splitOnChar_nosep ',' a (h a (by simp))
    | cons b t2 =>
      rw [joinComma, splitOnChar_app ',' a _ (h a (by simp)),
        ih (by simp) (fun a2 ha2 => h a2 (by simp [ha2]))]

theorem joinComma_ne (os : List Str) (hne : os ≠ []) (hne2 : os ≠ [[]]) :
    joinComma os ≠ [] := by
  match os with
  | [a] =>
    rw [joinComma]
    intro hcon
    exact hne2 (by rw [hcon])
  | a :: b :: t =>
    rw [joinComma]
    simp

theorem joinComma_chars (os : List Str) :
    (∀ a ∈ os, ∀ c ∈ a, isLitChar c = true) →
    ∀ c ∈ joinComma os, isOptChar c = true := by
  induction os with
  | nil =>
    intro _ c hc
    simp [joinComma] at hc
  | cons a t ih =>
    intro h c hc
    cases t with
    | nil =>
      rw [joinComma] at hc
      exact (litChar_facts c (h a (by simp) c hc)).2.2.2
    | cons b t2 =>
      rw [joinComma] at hc
      rcases List.mem_append.mp hc with hc1 | hc2
      · exact (litChar_facts c (h a (by simp) c hc1)).2.2.2
      · rcases List.mem_cons.mp hc2 with rfl | hc3
        · decide
        · exact ih (fun a2 ha2 => h a2 (by simp [ha2])) c hc3

theorem map_self {α : Type} (f : α → α) (l : List α) (h : ∀ a ∈ l, f a = a) :
    l.map f = l := by
  induction l with
  | nil => rfl
  | cons a t ih => simp [h a (by simp), ih (fun b hb => h b (by simp [hb]))]

/-- Joining the comma-split of a string restores the string. -/
theorem joinComma_splitOnChar (l : Str) : joinComma (splitOnChar ',' l) = l := by
  induction l with
  | nil => rfl
  | cons c cs ih =>
    rw [splitOnChar]
    by_cases hc : c = ','
    · rw [if_pos hc]
      cases hsp : splitOnChar ',' cs with
      | nil => exact absurd hsp (splitOnChar_ne_nil ',' cs)
      | cons r rs =>
        rw [hsp] at ih
        rw [joinComma, ih, hc]
        rfl
    · rw [if_neg hc]
      cases hsp : splitOnChar ',' cs with
      | nil => exact absurd hsp (splitOnChar_ne_nil ',' cs)
      | cons r rs =>
        rw [hsp] at ih
        show joinComma ((c :: r) :: rs) = c :: cs
        cases rs with
        | nil =>
          rw [joinComma] at ih
          rw [joinComma, ih]
        | cons r2 rs2 =>
          rw [joinComma] at ih
          rw [joinComma, List.cons_append, ih]

theorem envAll_lit_nil (ps : List Piece) : envAll (Piece.lit [] :: ps) = envAll ps := by
  simp [envAll, pieceAll]

theorem envAll_opts_nilalt (ps : List Piece) :
    envAll (Piece.opts [[]] :: ps) = envAll ps := by
  simp [envAll, pieceAll]

theorem envAll_merge (a b : Str) (ps : List Piece) :
    envAll (Piece.lit a :: Piece.lit b :: ps) = envAll (Piece.lit (a ++ b) :: ps) := by
  simp [envAll, pieceAll, List.map_map, Function.comp, List.append_assoc]

theorem envAll_cons_congr (p : Piece) {qs rs : List Piece}
    (h : envAll qs = envAll rs) : envAll (p :: qs) = envAll (p :: rs) := by
  simp [envAll, h]

/-- The invariant actually maintained by the alternative sets built by
`ToxEnv.parse`: a nonempty list of alternatives whose characters are
neither braces, nor whitespace, nor commas (alternatives themselves may be
empty). -/
def OptInv : Piece → Prop
  | .lit _ => True
  | .opts os => os ≠ [] ∧ ∀ a ∈ os, ∀ c ∈ a, isOptChar c = true ∧ ¬(c = ',')

theorem envParseTokens_inv (ts : List Token) : ∀ ps,
    (∀ t ∈ ts, ∀ content, t = Token.options content →
      content ≠ [] ∧ ∀ c ∈ content, isOptChar c = true) →
    envParseTokens ts = .ok ps →
    ∀ p ∈ ps, OptInv p := by
  induction ts with
  | nil =>
    intro ps _ hok
    rw [envParseTokens] at hok
    injection hok with h
    subst h
    simp
  | cons t ts ih =>
    intro ps hts hok
    cases t with
    | options content =>
      rw [envParseTokens] at hok
      obtain ⟨ps2, hok2, rfl⟩ := except_map_ok _ _ _ hok
      intro p hp
      rcases List.mem_cons.mp hp with rfl | hp2
      · obtain ⟨hcne, hcall⟩ := hts (Token.options content) (by simp) content rfl
        constructor
        · intro hcon
          have hcon2 : List.map pyStrip (splitOnChar ',' content) = [] := hcon
          exact splitOnChar_ne_nil ',' content (List.map_eq_nil_iff.mp hcon2)
        · intro a ha c hc
          simp only [optsParseContent, List.mem_map] at ha
          obtain ⟨seg, hseg, rfl⟩ := ha
          have hcseg := pyStrip_subset seg c hc
          have hdone := splitOnChar_chars ',' content seg hseg c hcseg
          exact ⟨hcall c hdone.1, hdone.2⟩
      · exact ih ps2 (fun t2 ht2 => hts t2 (by simp [ht2])) hok2 p hp2
    | literal s2 =>
      rw [envParseTokens] at hok
      obtain ⟨ps2, hok2, rfl⟩ := except_map_ok _ _ _ hok
      intro p hp
      rcases List.mem_cons.mp hp with rfl | hp2
      · trivial
      · exact ih ps2 (fun t2 ht2 => hts t2 (by simp [ht2])) hok2 p hp2
    | comma w =>
      simp [envParseTokens] at hok
    | newline =>
      simp [envParseTokens] at hok
    | space w =>
      simp [envParseTokens] at hok

/-! ## Round-trip machinery -/

/-- A literal token shape: nonempty, over `[A-Za-z0-9_-]`. -/
def LitSeg (s : Str) : Prop := s ≠ [] ∧ ∀ c ∈ s, isLitChar c = true

/-- A brace-group token shape: `{` + nonempty `[^{}\s]` interior + `}`. -/
def BraceSeg (s : Str) : Prop :=
  ∃ content, content ≠ [] ∧ (∀ c ∈ content, isOptChar c = true)
    ∧ s = '{' :: (content ++ ['}'])

/-- Parsing a concatenation of literal and brace-group token shapes yields
pieces whose string forms concatenate back to the input. -/
theorem segs_parse : ∀ (n : Nat) (segs : List Str), segs.length ≤ n →
    (∀ seg ∈ segs, LitSeg seg ∨ BraceSeg seg) →
    ∃ ps, envParseTokens (tokenize segs.flatten) = .ok ps
      ∧ (ps.map pieceStr).flatten = segs.flatten := by
  intro n
  induction n with
  | zero =>
    intro segs h1 _
    have hseg : segs = [] := List.eq_nil_of_length_eq_zero (Nat.le_zero.mp h1)
    subst hseg
    exact ⟨[], rfl, rfl⟩
  | succ n ih =>
    intro segs hlen hsegs
    cases segs with
    | nil => exact ⟨[], rfl, rfl⟩
    | cons seg rest =>
      rcases hsegs seg (by simp) with hlit | hbrace
      · obtain ⟨hne, hall⟩ := hlit
        cases rest with
        | nil =>
          refine ⟨[Piece.lit seg], ?_, by simp [pieceStr]⟩
          have hflat : List.flatten [seg] = seg ++ ([] : Str) := by simp
          rw [hflat, tokenize_lit seg [] hne hall (fun c rs h => by cases h)]
          rfl
        | cons seg2 rest2 =>
          rcases hsegs seg2 (by simp) with hlit2 | hbrace2
          · have hlen2 : ((seg ++ seg2) :: rest2).length ≤ n := by
              simp at hlen ⊢
              omega
            have hsegs2 : ∀ s2 ∈ (seg ++ seg2) :: rest2, LitSeg s2 ∨ BraceSeg s2 := by
              intro s2 hs2
              rcases List.mem_cons.mp hs2 with rfl | h2
              · left
                refine ⟨fun hcon => hne (List.append_eq_nil.mp hcon).1, ?_⟩
                intro c hc
                rcases List.mem_append.mp hc with hc1 | hc2
                · exact hall c hc1
                · exact hlit2.2 c hc2
              · exact hsegs s2 (by simp [h2])
            obtain ⟨ps, h1, h2⟩ := ih _ hlen2 hsegs2
            have hfl : ((seg ++ seg2) :: rest2).flatten
                = (seg :: seg2 :: rest2).flatten := by
              simp [List.append_assoc]
            refine ⟨ps, ?_, ?_⟩
            · rw [← hfl]
              exact h1
            · rw [← hfl]
              exact h2
          · obtain ⟨content2, hcne2, hcall2, hseq2⟩ := hbrace2
            have hstop : ∀ c rs, (List.flatten (seg2 :: rest2)) = c :: rs →
                isLitChar c = false := by
              intro c rs h
              rw [List.flatten_cons, hseq2, List.cons_append] at h
              injection h with h1 _
              subst h1
              decide
            obtain ⟨ps, h1, h2⟩ := ih (seg2 :: rest2)
              (by simp at hlen ⊢; omega) (fun s2 hs2 => hsegs s2 (by simp [hs2]))
            refine ⟨Piece.lit seg :: ps, ?_, ?_⟩
            · rw [List.flatten_cons, tokenize_lit seg _ hne hall hstop,
                envParseTokens, h1]
              rfl
            · simp only [List.map_cons, List.flatten_cons, pieceStr]
              rw [h2]
              simp
      · obtain ⟨content, hcne, hcall, rfl⟩ := hbrace
        have hflat : (('{' :: (content ++ ['}'])) :: rest).flatten
            = '{' :: (content ++ '}' :: rest.flatten) := by
          simp [List.append_assoc]
        obtain ⟨ps, h1, h2⟩ := ih rest
          (by simp at hlen ⊢; omega) (fun s2 hs2 => hsegs s2 (by simp [hs2]))
        refine ⟨Piece.opts (optsParseContent content) :: ps, ?_, ?_⟩
        · rw [hflat, tokenize_brace content _ hcne hcall, envParseTokens, h1]
          rfl
        · simp only [List.map_cons, List.flatten_cons, pieceStr, optsStr]
          rw [h2]
          have hmapid : List.map pyStrip (splitOnChar ',' content)
              = splitOnChar ',' content :=
            map_self pyStrip _ (fun seg2 hseg2 => pyStrip_id seg2 (fun c hc =>
              optChar_not_space c (hcall c (splitOnChar_chars ',' content seg2 hseg2 c hc).1)))
          rw [optsParseContent, hmapid, joinComma_splitOnChar]

/-- A piece valid per the data model: a literal over `[A-Za-z0-9_-]`, or a
nonempty alternative list whose alternatives are over `[A-Za-z0-9_-]`. -/
def ValidPiece : Piece → Prop
  | .lit s => ∀ c ∈ s, isLitChar c = true
  | .opts os => os ≠ [] ∧ ∀ a ∈ os, ∀ c ∈ a, isLitChar c = true

/-- Reparsing the serialization of valid pieces succeeds and denotes the same
generated list of strings (hence the same multiset). -/
theorem pieces_reparse : ∀ (n : Nat) (ps : List Piece), ps.length ≤ n →
    (∀ p ∈ ps, ValidPiece p) →
    ∃ qs, envParseTokens (tokenize (ps.map pieceStr).flatten) = .ok qs
      ∧ envAll qs = envAll ps := by
  intro n
  induction n with
  | zero =>
    intro ps h1 _
    have hps : ps = [] := List.eq_nil_of_length_eq_zero (Nat.le_zero.mp h1)
    subst hps
    exact ⟨[], rfl, rfl⟩
  | succ n ih =>
    intro ps hlen hv
    cases ps with
    | nil => exact ⟨[], rfl, rfl⟩
    | cons p rest =>
      cases p with
      | lit s =>
        have hall : ∀ ch ∈ s, isLitChar ch = true := hv (Piece.lit s) (by simp)
        cases s with
        | nil =>
          obtain ⟨qs, h1, h2⟩ := ih rest (by simp at hlen ⊢; omega)
            (fun q hq => hv q (by simp [hq]))
          refine ⟨qs, ?_, ?_⟩
          · simp only [List.map_cons, List.flatten_cons, pieceStr, List.nil_append]
            exact h1
          · rw [h2]
            exact (envAll_lit_nil rest).symm
        | cons c s2 =>
          cases rest with
          | nil =>
            refine ⟨[Piece.lit (c :: s2)], ?_, rfl⟩
            have hfl : ((Piece.lit (c :: s2) :: ([] : List Piece)).map pieceStr).flatten
                = (c :: s2) ++ ([] : Str) := by
              simp [pieceStr]
            rw [hfl, tokenize_lit (c :: s2) [] (by simp) hall (fun ch rs h => by cases h)]
            rfl
          | cons p2 rest2 =>
            cases p2 with
            | lit b =>
              have hallb : ∀ ch ∈ b, isLitChar ch = true := hv (Piece.lit b) (by simp)
              have hvm : ∀ q ∈ Piece.lit ((c :: s2) ++ b) :: rest2, ValidPiece q := by
                intro q hq
                rcases List.mem_cons.mp hq with rfl | hq2
                · intro ch hch
                  rcases List.mem_append.mp hch with h1 | h1
                  · exact hall ch h1
                  · exact hallb ch h1
                · exact hv q (by simp [hq2])
              obtain ⟨qs, h1, h2⟩ := ih (Piece.lit ((c :: s2) ++ b) :: rest2)
                (by simp at hlen ⊢; omega) hvm
              have hfl : ((Piece.lit ((c :: s2) ++ b) :: rest2).map pieceStr).flatten
                  = ((Piece.lit (c :: s2) :: Piece.lit b :: rest2).map pieceStr).flatten := by
                simp [pieceStr, List.append_assoc]
              refine ⟨qs, ?_, ?_⟩
              · rw [← hfl]
                exact h1
              · rw [h2]
                exact (envAll_merge (c :: s2) b rest2).symm
            | opts os =>
              obtain ⟨qs, h1, h2⟩ := ih (Piece.opts os :: rest2)
                (by simp at hlen ⊢; omega) (fun q hq => hv q (by simp [hq]))
              have hstop : ∀ ch rs,
                  ((Piece.opts os :: rest2).map pieceStr).flatten = ch :: rs →
                  isLitChar ch = false := by
                intro ch rs h
                simp only [List.map_cons, List.flatten_cons, pieceStr, optsStr,
                  List.cons_append] at h
                injection h with h1 _
                subst h1
                decide
              refine ⟨Piece.lit (c :: s2) :: qs, ?_, ?_⟩
              · have hfl : ((Piece.lit (c :: s2) :: Piece.opts os :: rest2).map pieceStr).flatten
                    = (c :: s2) ++ ((Piece.opts os :: rest2).map pieceStr).flatten := by
                  simp [pieceStr]
                rw [hfl, tokenize_lit (c :: s2) _ (by simp) hall hstop, envParseTokens, h1]
                rfl
              · exact envAll_cons_congr _ h2
      | opts os =>
        obtain ⟨hone, hallo⟩ : os ≠ [] ∧ ∀ a ∈ os, ∀ ch ∈ a, isLitChar ch = true :=
          hv (Piece.opts os) (by simp)
        obtain ⟨qs, h1, h2⟩ := ih rest (by simp at hlen ⊢; omega)
          (fun q hq => hv q (by simp [hq]))
        by_cases hsingle : os = [[]]
        · subst hsingle
          refine ⟨qs, ?_, ?_⟩
          · have hfl : ((Piece.opts [[]] :: rest).map pieceStr).flatten
                = '{' :: '}' :: (rest.map pieceStr).flatten := by
              simp [pieceStr, optsStr, joinComma]
            rw [hfl, tok_skip_empty_brace]
            exact h1
          · rw [h2]
            exact (envAll_opts_nilalt rest).symm
        · have hcne : joinComma os ≠ [] := joinComma_ne os hone hsingle
          have hcall : ∀ ch ∈ joinComma os, isOptChar ch = true :=
            joinComma_chars os hallo
          have hfl : ((Piece.opts os :: rest).map pieceStr).flatten
              = '{' :: (joinComma os ++ '}' :: (rest.map pieceStr).flatten) := by
            simp [pieceStr, optsStr, List.append_assoc]
          have hcontent : optsParseContent (joinComma os) = os := by
            rw [optsParseContent,
              joinComma_split os hone
                (fun a ha ch hch => (litChar_facts ch (hallo a ha ch hch)).1)]
            exact map_self pyStrip os (fun a ha => pyStrip_id a (fun ch hch =>
              optChar_not_space ch (litChar_facts ch (hallo a ha ch hch)).2.2.2))
          refine ⟨Piece.opts os :: qs, ?_, ?_⟩
          · rw [hfl, tokenize_brace _ _ hcne hcall, envParseTokens, h1, hcontent]
            rfl
          · exact envAll_cons_congr _ h2

/-! ## Claim theorems -/

/-- Claim C1 (code bug): `add` does not always extend the generated set by
exactly the given value. On the spec `py{a,b}x` (bucket `("py", {a,b}, "x")`)
adding `"py"` produces `py{a,b,}x`, whose generated set contains the
spurious `"pyx"` and omits `"py"` itself, so
`set(x.add(v).all()) ≠ set(x.all()) ∪ {v}` at this input. -/
theorem add_misses_value_at_py_bug :
    add ⟨[Piece.lit (chars "py"), Piece.opts [chars "a", chars "b"],
          Piece.lit (chars "x")]⟩ (chars "py")
      = .ok ⟨[Piece.lit (chars "py"), Piece.opts [chars "a", chars "b", []],
              Piece.lit (chars "x")]⟩
    ∧ (envAll [Piece.lit (chars "py"), Piece.opts [chars "a", chars "b", []],
          Piece.lit (chars "x")]).toFinset
        ≠ insert (chars "py")
            (envAll [Piece.lit (chars "py"), Piece.opts [chars "a", chars "b"],
              Piece.lit (chars "x")]).toFinset := by
  decide

/-- Claim C3 (code bug): the `for`/`else` clause of the suffix loop in `add`
sets `j = len(right)` whenever the loop range `range(len(value) - i)` is
exhausted without a break, even when `len(right) > len(value) - i`; so `j`
is not capped to keep `i + j ≤ len(value)`. On the bucket
`("py", {a,b}, "x")` with `value = "py"` we get `i = 2` and `j = 1`, so
`i + j = 3 > len(value) = 2`. -/
theorem add_j_uncapped_bug :
    bucket ⟨[Piece.lit (chars "py"), Piece.opts [chars "a", chars "b"],
        Piece.lit (chars "x")]⟩
      = .ok (chars "py", some [chars "a", chars "b"], chars "x")
    ∧ lcpLen (chars "py") (chars "py") = 2
    ∧ addJ (chars "py") (chars "x") 2 = 1
    ∧ ¬(2 + addJ (chars "py") (chars "x") 2 ≤ (chars "py").length) := by
  decide

/-- Claim C2: whenever `hoist` succeeds on a spec that is well-formed per
the data model (every alternative set stores at least one alternative) —
via the fast bucket-based path or the general piecewise fallback — the
result denotes exactly the same generated set as the input. -/
theorem hoist_preserves_set (e : ToxEnv) (pre : Str) (out : ToxEnv)
    (hwf : wfPieces e.pieces = true) (hok : hoist e pre = .ok out) :
    (envAll out.pieces).toFinset = (envAll e.pieces).toFinset := by
  have hmem : ∀ s, s ∈ envAll out.pieces ↔ s ∈ envAll e.pieces := by
    cases hs : hoistSimple e pre with
    | ok r =>
      simp only [hoist, hs] at hok
      injection hok with hok
      subst hok
      exact hoistSimple_set e pre r hwf hs
    | error er =>
      simp only [hoist, hs] at hok
      exact hoistDiff_set e pre out hwf hok
  ext s
  simp only [List.mem_toFinset]
  exact hmem s

/-- Witness for `hoist_preserves_set`: hoisting `"py"` out of
`{py27,py36}-django{15,16}` (which takes the general path) yields
`py{27,36}-django{15,16}` with the same generated set. -/
theorem hoist_preserves_set_witness :
    (envAll (⟨[Piece.lit (chars "py"), Piece.opts [chars "27", chars "36"],
        Piece.lit (chars "-django"),
        Piece.opts [chars "15", chars "16"]]⟩ : ToxEnv).pieces).toFinset
      = (envAll (⟨[Piece.opts [chars "py27", chars "py36"],
          Piece.lit (chars "-django"),
          Piece.opts [chars "15", chars "16"]]⟩ : ToxEnv).pieces).toFinset :=
  hoist_preserves_set
    ⟨[Piece.opts [chars "py27", chars "py36"], Piece.lit (chars "-django"),
      Piece.opts [chars "15", chars "16"]]⟩
    (chars "py")
    ⟨[Piece.lit (chars "py"), Piece.opts [chars "27", chars "36"],
      Piece.lit (chars "-django"), Piece.opts [chars "15", chars "16"]]⟩
    (by decide) (by decide)

/-- Claim C5: for a spec that is well-formed per the data model (every
alternative set stores at least one alternative), `bucket` succeeds exactly
when the spec contains at most one alternative-set piece with at least two
distinct alternatives after literal collapsing; when a second such free
alternative set is encountered the operation fails with the typed hoist
error. -/
theorem bucket_canonical (e : ToxEnv) (hwf : wfPieces e.pieces = true) :
    (e.pieces.countP freePiece ≤ 1 → ∃ t, bucket e = .ok t)
    ∧ (2 ≤ e.pieces.countP freePiece → bucket e = .error .hoistErr) :=
  bucketGo_noMid e.pieces [] [] hwf

/-- Witness for `bucket_canonical` on the spec `py{38,39}`. -/
theorem bucket_canonical_witness :
    (([Piece.lit (chars "py"), Piece.opts [chars "38", chars "39"]].countP freePiece ≤ 1 →
        ∃ t, bucket ⟨[Piece.lit (chars "py"), Piece.opts [chars "38", chars "39"]]⟩ = .ok t)
      ∧ (2 ≤ [Piece.lit (chars "py"), Piece.opts [chars "38", chars "39"]].countP freePiece →
        bucket ⟨[Piece.lit (chars "py"), Piece.opts [chars "38", chars "39"]]⟩
          = .error .hoistErr)) :=
  bucket_canonical ⟨[Piece.lit (chars "py"), Piece.opts [chars "38", chars "39"]]⟩
    (by decide)

/-- Claim C6 (counterexample): an input byte matched by no token pattern
does not make parsing fail; `ToxEnv.parse("a!b")` succeeds, silently
skipping the `!`. -/
theorem parse_skips_unmatched_byte_cex :
    envParse (chars "a!b") = .ok ⟨[Piece.lit (chars "a"), Piece.lit (chars "b")]⟩
    ∧ envlistParse (chars "a!b")
        = .ok ⟨[⟨[Piece.lit (chars "ab")]⟩]⟩ := by
  decide

/-- Claim C6 (amended): a byte at which no token pattern can start is
silently skipped by the scan — scanning resumes at the next byte — and
`ToxEnv.parse` / `ToxEnvlist.parse` behave as if the byte were absent. -/
theorem unmatched_byte_skipped (c : Char) (s : Str)
    (h : ¬(c = ',' ∨ c = '\n' ∨ isHWS c = true ∨ isLitChar c = true ∨ c = '{')) :
    tokenize (c :: s) = tokenize s
    ∧ envParse (c :: s) = envParse s
    ∧ envlistParse (c :: s) = envlistParse s := by
  push_neg at h
  obtain ⟨h1, h2, h3, h4, h5⟩ := h
  have ht : tokenize (c :: s) = tokenize s := by
    show tokenizeF (c :: s).length (c :: s) = tokenize s
    simp only [List.length_cons, tokenizeF, if_neg h1, if_neg h2, if_neg h3,
      if_neg h4, if_neg h5]
    rfl
  exact ⟨ht, by simp [envParse, ht], by simp [envlistParse, ht]⟩

/-- Witness for `unmatched_byte_skipped` at `c = '!'`, `s = "ab"`. -/
theorem unmatched_byte_skipped_witness :
    tokenize ('!' :: chars "ab") = tokenize (chars "ab")
    ∧ envParse ('!' :: chars "ab") = envParse (chars "ab")
    ∧ envlistParse ('!' :: chars "ab") = envlistParse (chars "ab") :=
  unmatched_byte_skipped '!' (chars "ab") (by decide)

/-- Claim C7 (counterexample): alternative sets produced by
`ToxEnv.parse` need not hold non-empty strings over `[A-Za-z0-9_-]`:
parsing `{a.b,}` yields the alternatives `"a.b"` (containing `.`, outside
the charset) and `""` (empty). -/
theorem parse_alt_charset_cex :
    envParse ('{' :: (chars "a.b," ++ ['}']))
      = .ok ⟨[Piece.opts [chars "a.b", []]]⟩
    ∧ isLitChar '.' = false := by
  decide

/-- Claim C7 (amended): every alternative set built by `ToxEnv.parse` holds
a nonempty list of alternatives whose characters are neither braces, nor
whitespace, nor commas; alternatives may be empty and may use characters
outside `[A-Za-z0-9_-]`, and `add` inserts its argument verbatim, so the
stricter invariant of the claim does not hold. -/
theorem parse_alt_invariant (s : Str) (env : ToxEnv)
    (hok : envParse s = .ok env) : ∀ p ∈ env.pieces, OptInv p := by
  rw [envParse] at hok
  obtain ⟨ps, hok2, rfl⟩ := except_map_ok _ _ _ hok
  exact envParseTokens_inv (tokenize s) ps
    (fun t ht content hc => tokenize_opts_inv s t ht content hc) hok2

/-- Witness for `parse_alt_invariant` on the input `{x,y}`. -/
theorem parse_alt_invariant_witness :
    OptInv (Piece.opts [chars "x", chars "y"]) :=
  parse_alt_invariant ('{' :: (chars "x,y" ++ ['}']))
    ⟨[Piece.opts [chars "x", chars "y"]]⟩ (by decide)
    (Piece.opts [chars "x", chars "y"]) (by decide)

/-- Claim C8 (counterexample): in the general hoist path, when a literal
piece starts with the still-remaining prefix, the emitted literal piece is
the *remaining* prefix, not the original argument. Hoisting `"ab"` out of
`{a}bc` consumes `"a"` first, and the emitted split is `"b"` + `"c"`; no
piece equal to the original prefix `"ab"` appears. -/
theorem hoistDiff_emits_remaining_cex :
    hoistDiff ⟨[Piece.opts [chars "a"], Piece.lit (chars "bc")]⟩ (chars "ab")
      = .ok ⟨[Piece.lit (chars "a"), Piece.lit (chars "b"), Piece.lit (chars "c")]⟩
    ∧ Piece.lit (chars "ab")
        ∉ [Piece.lit (chars "a"), Piece.lit (chars "b"), Piece.lit (chars "c")] := by
  decide

/-- Claim C8 (amended): in the general hoist path, when a literal piece
starts with the still-remaining prefix, the algorithm emits a literal piece
equal to the *remaining* prefix, then the leftover suffix of that piece if
nonempty, then the subsequent pieces with Python-falsy pieces dropped, and
terminates. -/
theorem hoistDiff_literal_case (pre s : Str) (ps : List Piece)
    (h : pre.isPrefixOf s = true) :
    hoistDiffGo pre (Piece.lit s :: ps)
      = .ok (Piece.lit pre ::
          ((if s.drop pre.length = [] then []
            else [Piece.lit (s.drop pre.length)])
            ++ ps.filter pieceTruthy)) := by
  have hps : pieceStarts pre (Piece.lit s) = true := h
  by_cases hd : s.drop pre.length = [] <;>
    simp [hoistDiffGo, hps, removePrePiece, pieceTruthy, hd]

/-- Witness for `hoistDiff_literal_case` at `pre = "b"`, piece `"bc"`. -/
theorem hoistDiff_literal_case_witness :
    hoistDiffGo (chars "b") (Piece.lit (chars "bc") :: [])
      = .ok (Piece.lit (chars "b") ::
          ((if (chars "bc").drop (chars "b").length = [] then []
            else [Piece.lit ((chars "bc").drop (chars "b").length)])
            ++ ([] : List Piece).filter pieceTruthy)) :=
  hoistDiff_literal_case (chars "b") (chars "bc") [] (by decide)

/-- Claim C9 (counterexample): an empty required buffer (two adjacent
separators) makes `ToxEnvlist.parse` fail via the bare `assert buf`, i.e.
with an `AssertionError`, not with a `ParseError`. -/
theorem envlist_assert_not_parse_cex :
    envlistParse (chars "a,,b") = .error .assertErr
    ∧ Err.assertErr ≠ Err.parseErr := by
  decide

/-- Claim C9 (amended): a trailing separator reached with a nonempty final
buffer is dropped (parsing is unchanged), while a separator reached with an
empty buffer fails with the assertion error. -/
theorem envlist_sep_behavior :
    (∀ ts buf w, finalBuf ts buf ≠ [] →
        envlistGo (ts ++ [Token.comma w]) buf = envlistGo ts buf
        ∧ envlistGo (ts ++ [Token.newline]) buf = envlistGo ts buf)
    ∧ (∀ ts w, envlistGo (Token.comma w :: ts) [] = .error .assertErr
        ∧ envlistGo (Token.newline :: ts) [] = .error .assertErr) := by
  constructor
  · intro ts
    induction ts with
    | nil =>
      intro buf w h
      simp only [finalBuf] at h
      constructor <;>
        · simp only [List.nil_append, envlistGo, List.isEmpty_eq_true, h, if_false]
          cases envParse buf <;> simp [envlistGo, Except.map]
    | cons t ts ih =>
      intro buf w h
      match t with
      | Token.comma w2 =>
        simp only [finalBuf] at h
        by_cases hb : buf = []
        · subst hb
          constructor <;> simp [envlistGo]
        · rcases hp : envParse buf with er | e
          · constructor <;> simp [envlistGo, hb, hp]
          · exact ⟨by simp [envlistGo, hb, hp, (ih [] w h).1],
              by simp [envlistGo, hb, hp, (ih [] w h).2]⟩
      | Token.newline =>
        simp only [finalBuf] at h
        by_cases hb : buf = []
        · subst hb
          constructor <;> simp [envlistGo]
        · rcases hp : envParse buf with er | e
          · constructor <;> simp [envlistGo, hb, hp]
          · exact ⟨by simp [envlistGo, hb, hp, (ih [] w h).1],
              by simp [envlistGo, hb, hp, (ih [] w h).2]⟩
      | Token.space w2 =>
        simp only [finalBuf] at h
        simpa only [List.cons_append, envlistGo] using ih buf w h
      | Token.literal s =>
        simp only [finalBuf] at h
        simpa only [List.cons_append, envlistGo] using ih (buf ++ s) w h
      | Token.options content =>
        simp only [finalBuf] at h
        simpa only [List.cons_append, envlistGo] using ih (buf ++ ('{' :: (content ++ ['}']))) w h
  · intro ts w
    constructor <;> simp [envlistGo]

/-- Witness for `envlist_sep_behavior`: a trailing comma after `"a"` is
dropped, and a leading comma asserts. -/
theorem envlist_sep_behavior_witness :
    (envlistGo ([Token.literal (chars "a")] ++ [Token.comma []]) []
      = envlistGo [Token.literal (chars "a")] [])
    ∧ envlistGo (Token.comma [] :: []) [] = .error .assertErr :=
  ⟨(envlist_sep_behavior.1 [Token.literal (chars "a")] [] [] (by decide)).1,
   (envlist_sep_behavior.2 [] []).1⟩

/-- C10: for every nonempty string that is exactly a concatenation of literal
tokens (`[A-Za-z0-9_-]+`) and brace-group tokens (brace, nonempty run of
non-brace non-whitespace characters, closing brace), serializing the parse
reproduces the input character for character:
`str(ToxEnv.parse(s)) == s`. -/
theorem token_concat_roundtrip (segs : List Str) (hne : segs ≠ [])
    (hsegs : ∀ seg ∈ segs, LitSeg seg ∨ BraceSeg seg) :
    Except.map envStr (envParse segs.flatten) = .ok segs.flatten := by
  obtain ⟨ps, h1, h2⟩ := segs_parse segs.length segs (le_refl _) hsegs
  rw [envParse, h1]
  simpa [envStr, Except.map] using h2

/-- Witness for `token_concat_roundtrip` at the concrete input
`["py3", brace-group of "8,9"]`, that is the string of characters
p, y, 3, brace, 8, comma, 9, brace. -/
theorem token_concat_roundtrip_witness :
    Except.map envStr
      (envParse (List.flatten [chars "py3", '{' :: (chars "8,9" ++ ['}'])]))
      = .ok (List.flatten [chars "py3", '{' :: (chars "8,9" ++ ['}'])]) :=
  token_concat_roundtrip [chars "py3", '{' :: (chars "8,9" ++ ['}'])]
    (by decide)
    (by
      intro seg hseg
      rcases List.mem_cons.mp hseg with rfl | hseg2
      · exact Or.inl ⟨by decide, by decide⟩
      · rcases List.mem_cons.mp hseg2 with rfl | h
        · exact Or.inr ⟨chars "8,9", by decide, by decide, rfl⟩
        · cases h)

/-- C4: for every valid spec (per the data model: literals and nonempty
alternative lists over `[A-Za-z0-9_-]`), `ToxEnv.parse(str(x))` succeeds and
generates the same strings as `x` as an unordered multiset; the piece
structure may differ. -/
theorem parse_str_same_multiset (x : ToxEnv)
    (hv : ∀ p ∈ x.pieces, ValidPiece p) :
    ∃ y, envParse (envStr x) = .ok y
      ∧ Multiset.ofList (envAll y.pieces) = Multiset.ofList (envAll x.pieces) := by
  obtain ⟨qs, h1, h2⟩ := pieces_reparse x.pieces.length x.pieces (le_refl _) hv
  refine ⟨⟨qs⟩, ?_, ?_⟩
  · rw [envParse, envStr, h1]
    rfl
  · exact congrArg Multiset.ofList h2

/-- Witness for `parse_str_same_multiset` at the concrete spec
`py` + alternatives (38, 39). -/
theorem parse_str_same_multiset_witness :
    ∃ y, envParse (envStr ⟨[Piece.lit (chars "py"),
        Piece.opts [chars "38", chars "39"]]⟩) = .ok y
      ∧ Multiset.ofList (envAll y.pieces)
        = Multiset.ofList (envAll [Piece.lit (chars "py"),
            Piece.opts [chars "38", chars "39"]]) :=
  parse_str_same_multiset
    ⟨[Piece.lit (chars "py"), Piece.opts [chars "38", chars "39"]]⟩
    (by
      intro p hp
      rcases List.mem_cons.mp hp with rfl | hp2
      · show ∀ c ∈ chars "py", isLitChar c = true
        decide
      · rcases List.mem_cons.mp hp2 with rfl | h
        · exact ⟨by decide, by decide⟩
        · cases h)

end CodemodTox
